import Mathlib

/-!
Verification of the incident segmentation core of `extract_incidents.py`
(repository `Incident-Stripper`).

The Python source is shallowly embedded: text is a `List Char`, positions are
absolute `Nat` offsets, and each regular expression of the source is rendered
as an explicit executable matcher with the exact matching semantics of
Python's `re` module (leftmost match, greedy quantifiers with backtracking,
`pos`/`endpos` truncation, MULTILINE anchors where the source requests them).
Loops of the source that advance a cursor are rendered with an explicit fuel
argument; fuel exhaustion returns a neutral value and every top-level wrapper
supplies fuel that can never be exhausted.
-/

namespace IncidentStripper

/-! ## Character classes

`pyWs` is the whitespace class of Python's `\s` (for `str` patterns) and of
`str.strip()` / `str.split()`: ASCII whitespace, the C1/Unicode whitespace
code points, and the information separators. -/

def pyWs (c : Char) : Bool :=
  c = ' ' || c = '\t' || c = '\n' || c = '\r' || c = '\x0b' || c = '\x0c' ||
  c = '\x1c' || c = '\x1d' || c = '\x1e' || c = '\x1f' || c = '\x85' ||
  c = '\xa0' || c = '\u1680' ||
  ('\u2000' ≤ c && c ≤ '\u200A') ||
  c = '\u2028' || c = '\u2029' || c = '\u202F' || c = '\u205F' || c = '\u3000'

/-- The literal four-character tuple `(" ", "\n", "\t", "\r")` used by the
whitespace-skipping `while` loops inside `build_title_location`. -/
def skipWsCh (c : Char) : Bool :=
  c = ' ' || c = '\n' || c = '\t' || c = '\r'

def upperAZ (c : Char) : Bool := 'A' ≤ c && c ≤ 'Z'

def digitCh (c : Char) : Bool := '0' ≤ c && c ≤ '9'

/-- The character class of `SECTION_HEADER_RE` (after its leading `[A-Z]`):
`[A-Z0-9 /\(\)\-&.,'’–—]`. -/
def hdrClassCh (c : Char) : Bool :=
  upperAZ c || digitCh c || c = ' ' || c = '/' || c = '(' || c = ')' ||
  c = '-' || c = '&' || c = '.' || c = ',' || c = '\'' ||
  c = '’' || c = '–' || c = '—'

/-- The dash alternatives `[-–—]` of the date-suffix patterns. -/
def dashCh (c : Char) : Bool := c = '-' || c = '–' || c = '—'

/-- Line boundaries recognised by Python's `str.splitlines`. -/
def lineBoundaryCh (c : Char) : Bool :=
  c = '\n' || c = '\r' || c = '\x0b' || c = '\x0c' ||
  c = '\x1c' || c = '\x1d' || c = '\x1e' || c = '\x85' ||
  c = '\u2028' || c = '\u2029'

/-! ## Low-level text helpers -/

/-- Character at absolute position `i`, reading the stream as if it were
`endPos` characters long (Python's `pos`/`endpos` truncation). -/
def charIn (t : List Char) (endPos i : Nat) : Option Char :=
  if i < endPos then t[i]? else none

/-- Python slice `t[a:b]`. -/
def sliceOf (t : List Char) (a b : Nat) : List Char := (t.take b).drop a

/-- Length of the maximal run of characters satisfying `P`, starting at
position `i`, reading at most up to `endPos`. -/
def runGo (P : Char → Bool) : List Char → Nat
  | [] => 0
  | c :: rest => if P c then runGo P rest + 1 else 0

def runAt (P : Char → Bool) (t : List Char) (endPos i : Nat) : Nat :=
  runGo P ((t.take endPos).drop i)

/-- Does the literal `pat` occur at position `i` (entirely before `endPos`)? -/
def litHere (t : List Char) (endPos : Nat) : List Char → Nat → Bool
  | [], _ => true
  | c :: rest, i => charIn t endPos i = some c && litHere t endPos rest (i + 1)

/-- Case-insensitive (ASCII) variant of `litHere`; `pat` is given lowercase. -/
def litHereCI (t : List Char) (endPos : Nat) : List Char → Nat → Bool
  | [], _ => true
  | c :: rest, i =>
    (match charIn t endPos i with
     | some d => d.toLower = c
     | none => false) && litHereCI t endPos rest (i + 1)

/-- Does `pat` lead the list `l`? -/
def litLeads : List Char → List Char → Bool
  | [], _ => true
  | _ :: _, [] => false
  | p :: ps, c :: cs => p = c && litLeads ps cs

/-- Leftmost occurrence of the literal `pat` (Python `str.find`, `-1` as
`none`).  Scans suffixes of `t` structurally. -/
def findLitGo (pat : List Char) : List Char → Nat → Option Nat
  | [], _ => none
  | c :: rest, i =>
    if litLeads pat (c :: rest) then some i else findLitGo pat rest (i + 1)

def findLit (t pat : List Char) : Option Nat := findLitGo pat t 0

/-- First position `j ≥ i` holding a newline (Python `str.find("\n", i)`). -/
def nlSearch : List Char → Nat → Option Nat
  | [], _ => none
  | c :: rest, i => if c = '\n' then some i else nlSearch rest (i + 1)

def nlFrom (t : List Char) (i : Nat) : Option Nat := nlSearch (t.drop i) i

/-- Python `str.strip()` over our whitespace class. -/
def stripEnd (l : List Char) : List Char := (l.reverse.dropWhile pyWs).reverse

def stripChars (l : List Char) : List Char := stripEnd (l.dropWhile pyWs)

/-- Python `" ".join(s.split())`: split on whitespace runs, rejoin with single
spaces (used to normalise a captured full date). -/
def splitWsGo : List Char → List Char → List (List Char)
  | acc, [] => if acc.isEmpty then [] else [acc.reverse]
  | acc, c :: rest =>
    if pyWs c then
      if acc.isEmpty then splitWsGo [] rest else acc.reverse :: splitWsGo [] rest
    else splitWsGo (c :: acc) rest

def splitJoinWs (l : List Char) : List Char :=
  List.intercalate [' '] (splitWsGo [] l)

/-! ## `clean_title`

Each `re.sub` of the source is rendered with its exact effect, derived from
the backtracking behaviour of the pattern (documented step by step). -/

/-- Index (within `l`) of the last `'\n'` of `l`, if any. -/
def lastNlIdx : List Char → Option Nat
  | [] => none
  | c :: rest =>
    match lastNlIdx rest with
    | some j => some (j + 1)
    | none => if c = '\n' then some 0 else none

/-- `re.sub(r"^\d{1,3}\s*\n", "", title)`: the anchored pattern matches iff
the text starts with one to three digits (not followed by a fourth digit) and
the whitespace run after them contains a newline; the greedy `\s*\n` consumes
that run up to and including its last newline. -/
def sub1LeadPage (t : List Char) : List Char :=
  if 1 ≤ (t.takeWhile digitCh).length && (t.takeWhile digitCh).length ≤ 3 then
    match lastNlIdx ((t.drop (t.takeWhile digitCh).length).takeWhile pyWs) with
    | some j => (t.drop (t.takeWhile digitCh).length).drop (j + 1)
    | none => t
  else t

/-- One-position test for `\n\d{1,3}\s*$` (no MULTILINE): the suffix starting
here is a newline, one to three digits, then whitespace only to the end of the
string.  The greedy `\s*` then reaches the very end, so the match removes the
whole suffix. -/
def sub2Here : List Char → Bool
  | [] => false
  | c :: rest =>
    c = '\n' && 1 ≤ (rest.takeWhile digitCh).length &&
      (rest.takeWhile digitCh).length ≤ 3 &&
      (rest.drop (rest.takeWhile digitCh).length).all pyWs

def sub2Go : List Char → Nat → Option Nat
  | [], _ => none
  | c :: rest, i =>
    if sub2Here (c :: rest) then some i else sub2Go rest (i + 1)

/-- `re.sub(r"\n\d{1,3}\s*$", "", title)`. -/
def sub2TrailPage (t : List Char) : List Char :=
  match sub2Go t 0 with
  | some p => t.take p
  | none => t

/-- `re.sub(r"\n\d{1,3}\n", "\n", title)`: left-to-right non-overlapping
replacement; scanning resumes after each match. -/
def sub3Go : Nat → List Char → List Char
  | 0, l => l
  | _ + 1, [] => []
  | fuel + 1, c :: rest =>
    if c = '\n' then
      if 1 ≤ (rest.takeWhile digitCh).length &&
          (rest.takeWhile digitCh).length ≤ 3 &&
          (rest.drop (rest.takeWhile digitCh).length).head? = some '\n' then
        '\n' :: sub3Go fuel (rest.drop ((rest.takeWhile digitCh).length + 1))
      else '\n' :: sub3Go fuel rest
    else c :: sub3Go fuel rest

def sub3MidPage (t : List Char) : List Char := sub3Go t.length t

/-- Python `str.splitlines` (with `\r\n` as a single boundary and no final
empty line for a trailing boundary). -/
def splitLinesGo : List Char → List Char → List (List Char)
  | acc, [] => if acc.isEmpty then [] else [acc.reverse]
  | acc, [c] =>
    if lineBoundaryCh c then [acc.reverse] else [(c :: acc).reverse]
  | acc, c :: d :: rest =>
    if c = '\r' && d = '\n' then acc.reverse :: splitLinesGo [] rest
    else if lineBoundaryCh c then acc.reverse :: splitLinesGo [] (d :: rest)
    else splitLinesGo (c :: acc) (d :: rest)

def splitLinesPy (t : List Char) : List (List Char) := splitLinesGo [] t

/-- `_hdr_line.match(line.strip())` inside `clean_title`: the stripped line is
`[A-Z]` followed by at least four characters of the header class, to the end. -/
def hdrShaped (line : List Char) : Bool :=
  match stripChars line with
  | [] => false
  | c :: rest => upperAZ c && rest.all hdrClassCh && 4 ≤ rest.length

/-- The `while lines and _hdr_line.match(...): lines.pop(0)` loop. -/
def popHdrLines : List (List Char) → List (List Char)
  | [] => []
  | line :: rest => if hdrShaped line then popHdrLines rest else line :: rest

def sub4HdrLines (t : List Char) : List Char :=
  List.intercalate ['\n'] (popHdrLines (splitLinesPy t))

/-- `re.sub(r"\s*\n\s*", " ", title)`: each maximal whitespace run containing
a newline collapses to a single space. -/
def nlRunEmit (run : List Char) : List Char :=
  if run.contains '\n' then [' '] else run.reverse

def sub5Go : List Char → List Char → List Char
  | run, [] => nlRunEmit run
  | run, c :: rest =>
    if pyWs c then sub5Go (c :: run) rest
    else nlRunEmit run ++ c :: sub5Go [] rest

def sub5CollapseNl (t : List Char) : List Char := sub5Go [] t

/-- One candidate of the anchored greedy header-class strip
`re.sub(r"^[A-Z][A-Z0-9 ...]{4,}\s+(?=[A-Z])", "", title)`: the first `c`
characters are `[A-Z]` then header-class characters, followed by a non-empty
whitespace run whose following character is `[A-Z]`.  On success the match
(prefix and whitespace) is removed. -/
def sub6Try (t : List Char) (c : Nat) : Option Nat :=
  match t.head? with
  | none => none
  | some h =>
    if upperAZ h && ((t.drop 1).take (c - 1)).all hdrClassCh && c ≤ t.length then
      let w := ((t.drop c).takeWhile pyWs).length
      if 1 ≤ w then
        match (t.drop (c + w)).head? with
        | some n => if upperAZ n then some (c + w) else none
        | none => none
      else none
    else none

/-- Greedy backtracking: try the longest class run first, then shorter ones,
down to the minimum prefix length 5 (`[A-Z]` plus `{4,}`). -/
def sub6Go (t : List Char) : Nat → Nat → Option Nat
  | _, 0 => none
  | c, k + 1 =>
    if c < 5 then none
    else
      match sub6Try t c with
      | some r => some r
      | none => sub6Go t (c - 1) k

def sub6InlineHdr (t : List Char) : List Char :=
  match sub6Go t t.length t.length with
  | some r => t.drop r
  | none => t

/-- `re.sub(r" {2,}", " ", title)`: runs of two or more spaces become one. -/
def spaceRunEmit (run : List Char) : List Char :=
  if 2 ≤ run.length then [' '] else run

def sub7Go : List Char → List Char → List Char
  | run, [] => spaceRunEmit run
  | run, c :: rest =>
    if c = ' ' then sub7Go (c :: run) rest
    else spaceRunEmit run ++ c :: sub7Go [] rest

def sub7CollapseSpaces (t : List Char) : List Char := sub7Go [] t

/-- `clean_title` of the source, steps in source order. -/
def clean_title (t : List Char) : List Char :=
  stripChars (sub7CollapseSpaces (sub6InlineHdr (sub5CollapseNl
    (sub4HdrLines (sub3MidPage (sub2TrailPage (sub1LeadPage t)))))))

/-! ## `find_end_boundary` -/

def endMarker1 : List Char :=
  "WORKPLACE VIOLENCE (WPV) INSIDER THREAT INCIDENTS E-MAGAZINE".data

def endMarker2 : List Char :=
  "SOURCES FOR INSIDER THREAT INCIDENT POSTINGS".data

/-- `find_end_boundary`: earliest occurrence of either trailer marker, or the
length of the stream. -/
def find_end_boundary (t : List Char) : Nat :=
  let b1 := match findLit t endMarker1 with
    | some p => min t.length p
    | none => t.length
  match findLit t endMarker2 with
  | some p => min b1 p
  | none => b1

/-! ## `SOURCE_MARKER_RE` — `\(\s*Source\s*\)`, IGNORECASE -/

/-- Match attempt at position `p`; returns tne match end.  The pattern is
deterministic: `(`, greedy whitespace, `source` (case-insensitive), greedy
whitespace, `)`. -/
def matchSourceAt (t : List Char) (endPos p : Nat) : Option Nat :=
  if charIn t endPos p = some '(' then
    let w1 := runAt pyWs t endPos (p + 1)
    if litHereCI t endPos "source".data (p + 1 + w1) then
      let w2 := runAt pyWs t endPos (p + 1 + w1 + 6)
      if charIn t endPos (p + 1 + w1 + 6 + w2) = some ')' then
        some (p + 1 + w1 + 6 + w2 + 1)
      else none
    else none
  else none

/-- `finditer`: leftmost, non-overlapping, resuming after each match end. -/
def scanSourceGo (t : List Char) (endPos : Nat) : Nat → Nat → List (Nat × Nat)
  | _, 0 => []
  | p, fuel + 1 =>
    if p < endPos then
      match matchSourceAt t endPos p with
      | some e => (p, e) :: scanSourceGo t endPos e fuel
      | none => scanSourceGo t endPos (p + 1) fuel
    else []

/-- `raw_source_list` of `find_incidents`. -/
def rawSourceList (t : List Char) (endPos : Nat) : List (Nat × Nat) :=
  scanSourceGo t endPos 0 (endPos + 1)

/-- The deduplication loop: a span starting within 20 characters of the end of
the previous kept span extends that span (`sp[0] - last[1] < 20`, written
additively since span starts never precede the previous end). -/
def coalesceGo : List (Nat × Nat) → List (Nat × Nat) → List (Nat × Nat)
  | acc, [] => acc.reverse
  | [], sp :: rest => coalesceGo [sp] rest
  | last :: accRest, sp :: rest =>
    if sp.1 < last.2 + 20 then coalesceGo ((last.1, sp.2) :: accRest) rest
    else coalesceGo (sp :: last :: accRest) rest

/-- `source_positions` of `find_incidents`. -/
def sourcePositions (t : List Char) (endPos : Nat) : List (Nat × Nat) :=
  coalesceGo [] (rawSourceList t endPos)

/-! ## `DATE_SUFFIX` — full month-name dates -/

def monthNames : List (List Char) :=
  ["January".data, "February".data, "March".data, "April".data, "May".data,
   "June".data, "July".data, "August".data, "September".data, "October".data,
   "November".data, "December".data]

/-- The month alternation (no month name leads another, so at most one
alternative matches at a given position). -/
def monthAt (t : List Char) (endPos p : Nat) : Option Nat :=
  (monthNames.find? fun m => litHere t endPos m p).map List.length

/-- `\s*` then `\d{4}` (with further digits permitted after the four). -/
def yearAfterWs (t : List Char) (endPos u : Nat) : Option Nat :=
  if 4 ≤ runAt digitCh t endPos (u + runAt pyWs t endPos u) then
    some (u + runAt pyWs t endPos u + 4)
  else none

/-- The greedily-preferred branch of `[,.]?`: a separator character consumed,
then `\s*\d{4}`. -/
def sepThenYear (t : List Char) (endPos s : Nat) : Option Nat :=
  match charIn t endPos s with
  | some c => if c = ',' || c = '.' then yearAfterWs t endPos (s + 1) else none
  | none => none

/-- `[,.]?\s*\d{4}` with the optional separator tried greedily first. -/
def afterDay (t : List Char) (endPos s : Nat) : Option Nat :=
  match sepThenYear t endPos s with
  | some e => some e
  | none => yearAfterWs t endPos s

/-- `\d{1,2}` (greedy, two digits tried before one) followed by `afterDay`. -/
def dayThenYear (t : List Char) (endPos r : Nat) : Option Nat :=
  if runAt digitCh t endPos r = 0 then none
  else if 2 ≤ runAt digitCh t endPos r then
    match afterDay t endPos (r + 2) with
    | some e => some e
    | none => afterDay t endPos (r + 1)
  else afterDay t endPos (r + 1)

/-- After the month name at `q1`: `,?\s+` (mandatory whitespace) then the day
and year. -/
def wsThenDay (t : List Char) (endPos q2 : Nat) : Option Nat :=
  if 1 ≤ runAt pyWs t endPos q2 then
    dayThenYear t endPos (q2 + runAt pyWs t endPos q2)
  else none

def afterMonth (t : List Char) (endPos q1 : Nat) : Option Nat :=
  if charIn t endPos q1 = some ',' then wsThenDay t endPos (q1 + 1)
  else wsThenDay t endPos q1

/-- Full-date match attempt at `p`: returns `(matchEnd, group1Start)`; the
captured group runs from the month name to the end of the match. -/
def matchFullDateAt (t : List Char) (endPos p : Nat) : Option (Nat × Nat) :=
  match charIn t endPos p with
  | none => none
  | some c =>
    if dashCh c then
      if 1 ≤ runAt pyWs t endPos (p + 1) then
        match monthAt t endPos (p + 1 + runAt pyWs t endPos (p + 1)) with
        | none => none
        | some ml =>
          match afterMonth t endPos (p + 1 + runAt pyWs t endPos (p + 1) + ml) with
          | some e => some (e, p + 1 + runAt pyWs t endPos (p + 1))
          | none => none
      else none
    else none

/-- A full-date match: span `[start, stop)` and the normalised captured date. -/
structure DateMatch where
  start : Nat
  stop : Nat
  date : List Char
  deriving Repr, DecidableEq

def scanFullDateGo (t : List Char) (endPos : Nat) : Nat → Nat → List DateMatch
  | _, 0 => []
  | p, fuel + 1 =>
    if p < endPos then
      match matchFullDateAt t endPos p with
      | some (e, g1) =>
        ⟨p, e, splitJoinWs (sliceOf t g1 e)⟩ :: scanFullDateGo t endPos e fuel
      | none => scanFullDateGo t endPos (p + 1) fuel
    else []

/-- All `DATE_SUFFIX` matches in `[0, endPos)`, with
`" ".join(m.group(1).split())` as the stored date. -/
def fullDateMatches (t : List Char) (endPos : Nat) : List DateMatch :=
  scanFullDateGo t endPos 0 (endPos + 1)

/-! ## `DATE_SUFFIX_YEAR_ONLY` — `[-–—]\s+((?:19|20)\d{2})\s*$|\(((?:19|20)\d{2})\)`,
MULTILINE -/

/-- `(?:19|20)\d{2}` at `q`: four digits, the first two being `19` or `20`. -/
def yearHere (t : List Char) (endPos q : Nat) : Bool :=
  (litHere t endPos "19".data q || litHere t endPos "20".data q) &&
  2 ≤ runAt digitCh t endPos (q + 2)

/-- MULTILINE `$` holds at `x` iff `x` is the (truncated) end of the stream or
the character there is a newline. -/
def dollarAt (t : List Char) (endPos x : Nat) : Bool :=
  x = endPos || charIn t endPos x = some '\n'

/-- Greedy `\s*$`: the largest `s ≤ fuel` (descending search) with `$` at
`base + s`. -/
def dollarSearch (t : List Char) (endPos base : Nat) : Nat → Option Nat
  | 0 => if dollarAt t endPos base then some 0 else none
  | s + 1 =>
    if dollarAt t endPos (base + (s + 1)) then some (s + 1)
    else dollarSearch t endPos base s

/-- First alternative `[-–—]\s+((?:19|20)\d{2})\s*$` at `p`: returns
`(matchEnd, yearStart)`. -/
def matchYearAlt1 (t : List Char) (endPos p : Nat) : Option (Nat × Nat) :=
  match charIn t endPos p with
  | none => none
  | some c =>
    if dashCh c then
      let w1 := runAt pyWs t endPos (p + 1)
      if 1 ≤ w1 then
        let q := p + 1 + w1
        if yearHere t endPos q then
          match dollarSearch t endPos (q + 4) (runAt pyWs t endPos (q + 4)) with
          | some s => some (q + 4 + s, q)
          | none => none
        else none
      else none
    else none

/-- Second alternative `\(((?:19|20)\d{2})\)` at `p`. -/
def matchYearAlt2 (t : List Char) (endPos p : Nat) : Option (Nat × Nat) :=
  if charIn t endPos p = some '(' && yearHere t endPos (p + 1) &&
      charIn t endPos (p + 5) = some ')' then
    some (p + 6, p + 1)
  else none

/-- Year-only match attempt at `p`: the first alternative is preferred; the
captured year is the four digits at `yearStart`. -/
def matchYearOnlyAt (t : List Char) (endPos p : Nat) : Option (Nat × Nat) :=
  match matchYearAlt1 t endPos p with
  | some r => some r
  | none => matchYearAlt2 t endPos p

def scanYearOnlyGo (t : List Char) (endPos : Nat) : Nat → Nat → List DateMatch
  | _, 0 => []
  | p, fuel + 1 =>
    if p < endPos then
      match matchYearOnlyAt t endPos p with
      | some (e, ys) =>
        ⟨p, e, stripChars (sliceOf t ys (ys + 4))⟩ :: scanYearOnlyGo t endPos e fuel
      | none => scanYearOnlyGo t endPos (p + 1) fuel
    else []

/-- All `DATE_SUFFIX_YEAR_ONLY` matches in `[0, endPos)`; the stored date is
`(m.group(1) or m.group(2)).strip()`. -/
def yearOnlyMatches (t : List Char) (endPos : Nat) : List DateMatch :=
  scanYearOnlyGo t endPos 0 (endPos + 1)

/-! ## `SECTION_HEADER_RE` — `^([A-Z][A-Z0-9 /\(\)\-&.,'’–—]+)$`, MULTILINE

The class excludes `\n`, so a match is exactly a line segment: it starts at an
anchored position (offset 0 or just after a newline), runs over class
characters, and must be stopped by a newline or by the region end (where the
MULTILINE `$` also holds).  Anchored positions inside `[a, b)` are the line
starts of the stream (Python's `pos` does not re-anchor `^`). -/

/-- All line-start positions of the stream (position 0 and each position just
after a newline). -/
def lineStartsGo : List Char → Nat → List Nat
  | [], _ => []
  | c :: rest, i =>
    if c = '\n' then (i + 1) :: lineStartsGo rest (i + 1)
    else lineStartsGo rest (i + 1)

def lineStarts (t : List Char) : List Nat := 0 :: lineStartsGo t 0

/-- The end of the line-segment match beginning at `p` inside region
`[·, b)`: characters run to the next newline or to `b`, whichever is first. -/
def segEnd (t : List Char) (b p : Nat) : Nat :=
  match nlFrom t p with
  | some j => min j b
  | none => min t.length b

/-- Does `SECTION_HEADER_RE` match the line starting at `p` (within region end
`b`)?  Needs `[A-Z]` then at least one class character, all the way to the
segment end. -/
def hdrSegOk (t : List Char) (b p : Nat) : Bool :=
  let e := segEnd t b p
  match sliceOf t p e with
  | [] => false
  | c :: rest => upperAZ c && rest.all hdrClassCh && 1 ≤ rest.length

/-- `SECTION_HEADER_RE.finditer(text, a, b)`: spans `(start, segEnd)` of the
matching line segments whose start lies in `[a, b)`. -/
def headerSpansIn (t : List Char) (a b : Nat) : List (Nat × Nat) :=
  ((lineStarts t).filter fun p => a ≤ p && p < b).filterMap fun p =>
    if hdrSegOk t b p then some (p, segEnd t b p) else none

/-- `find_section_headers`: full-stream scan, keeping the stripped heading
text when its length is at least 5. -/
def find_section_headers (t : List Char) : List (Nat × List Char) :=
  (headerSpansIn t 0 t.length).filterMap fun se =>
    let h := stripChars (sliceOf t se.1 se.2)
    if 5 ≤ h.length then some (se.1, h) else none

/-! ## `TITLE_KEYWORDS` — the domain-keyword search (IGNORECASE) -/

/-- ASCII case-insensitive literal at the head of `l`. -/
def ciLeads : List Char → List Char → Bool
  | [], _ => true
  | _ :: _, [] => false
  | p :: ps, c :: cs => c.toLower = p && ciLeads ps cs

/-- `a\s+b` at the head of `l` (for `wire\s+fraud` and friends). -/
def ciGapLeads (a b : String) (l : List Char) : Bool :=
  ciLeads a.data l &&
    (let r := l.drop a.data.length
     let w := (r.takeWhile pyWs).length
     1 ≤ w && ciLeads b.data (r.drop w))

/-- Does any alternative of `TITLE_KEYWORDS` match at the head of `l`?  The
optional plurals `pleads?` / `admits?` match exactly when their stems do. -/
def kwHere (l : List Char) : Bool :=
  ciLeads "embezzl".data l || ciLeads "fraud".data l || ciLeads "stol".data l ||
  ciLeads "steal".data l || ciLeads "sentenced".data l ||
  ciLeads "guilty".data l || ciLeads "charged".data l ||
  ciLeads "theft".data l || ciLeads "kickback".data l ||
  ciLeads "scheme".data l || ciLeads "conspir".data l ||
  ciLeads "misappropriat".data l || ciLeads "indicted".data l ||
  ciLeads "arrested".data l || ciLeads "plead".data l ||
  ciLeads "convicted".data l || ciLeads "stealing".data l ||
  ciLeads "pocketing".data l || ciLeads "accused".data l ||
  ciLeads "admit".data l || ciLeads "fired".data l || ciLeads "spent".data l ||
  ciLeads "murder".data l || ciLeads "robbery".data l ||
  ciLeads "negligent".data l || ciLeads "awarded".data l ||
  ciLeads "brib".data l || ciLeads "extort".data l ||
  ciLeads "launder".data l || ciGapLeads "wire" "fraud" l ||
  ciGapLeads "bank" "fraud" l || ciGapLeads "mail" "fraud" l ||
  ciLeads "defraud".data l || ciLeads "misus".data l ||
  ciLeads "divert".data l || ciLeads "corrup".data l ||
  ciLeads "hack".data l || ciLeads "leak".data l ||
  ciLeads "espionage".data l || ciLeads "sabotage".data l ||
  ciLeads "threaten".data l || ciLeads "harass".data l ||
  ciLeads "assault".data l || ciLeads "manslaughter".data l

/-- `TITLE_KEYWORDS.search(s)`: some suffix of `s` starts with a keyword. -/
def hasKeyword : List Char → Bool
  | [] => false
  | c :: rest => kwHere (c :: rest) || hasKeyword rest

/-! ## `build_title_location` -/

/-- Rightmost `"\n\n"` occurrence entirely inside `[0, b)`
(Python `text.rfind("\n\n", 0, b)`). -/
def rfind2NLGo (b : Nat) : List Char → Nat → Option Nat → Option Nat
  | [], _, best => best
  | c :: rest, i, best =>
    if i + 2 ≤ b && c = '\n' && rest.head? = some '\n' then
      rfind2NLGo b rest (i + 1) (some i)
    else rfind2NLGo b rest (i + 1) best

def rfind2NL (t : List Char) (b : Nat) : Option Nat := rfind2NLGo b t 0 none

/-- Leftmost `"\n\n"` at position `≥ i`, entirely inside `[0, b)`
(Python `text.find("\n\n", i, b)`). -/
def find2NLGo (b : Nat) : List Char → Nat → Option Nat
  | [], _ => none
  | c :: rest, i =>
    if i + 2 ≤ b && c = '\n' && rest.head? = some '\n' then some i
    else find2NLGo b rest (i + 1)

def find2NL (t : List Char) (i b : Nat) : Option Nat := find2NLGo b (t.drop i) i

/-- The whitespace-skipping `while` loop: advance while the position is before
`sf` and holds one of `" "`, `"\n"`, `"\t"`, `"\r"`. -/
def skipWsGo (t : List Char) (sf : Nat) : Nat → Nat → Nat
  | p, 0 => p
  | p, fuel + 1 =>
    if p < sf then
      match t[p]? with
      | some c => if skipWsCh c then skipWsGo t sf (p + 1) fuel else p
      | none => p
    else p

def skipWs (t : List Char) (sf p : Nat) : Nat := skipWsGo t sf p sf

/-- The forward blank-line loop: repeatedly find `"\n\n"` in
`[scanPos, sf)`; each hit sets `lastSep` to just after the pair and resumes
one character after the hit. -/
def blankLoopGo (t : List Char) (sf : Nat) : Nat → Nat → Nat → Nat
  | _, lastSep, 0 => lastSep
  | scanPos, lastSep, fuel + 1 =>
    match find2NL t scanPos sf with
    | some bp => blankLoopGo t sf (bp + 1) (bp + 2) fuel
    | none => lastSep

/-- The candidate separator position contributed by a section-header match
`(·, e)` inside the title range: the position after the header's line end when
that line end lies before `sf`, else the match end itself. -/
def hdrCandidate (t : List Char) (sf e : Nat) : Nat :=
  match nlFrom t e with
  | some j => if j < sf then j + 1 else e
  | none => e

structure TitleLoc where
  title_start : Nat
  title_end : Nat
  raw_title : List Char
  date : List Char
  deriving Repr, DecidableEq

/-- The span found by `bisect_left(source_starts, search_from) - 1`: the last
coalesced span whose start precedes `search_from` (`srcs` is sorted by
strictly increasing starts, so `bisect_left` equals the count of smaller
starts). -/
def prevSourcePair (srcs : List (Nat × Nat)) (searchFrom : Nat) : Option (Nat × Nat) :=
  match (srcs.filter fun sp => sp.1 < searchFrom).length with
  | 0 => none
  | n + 1 => srcs[n]?

/-- `prev_source` with the `-1` sentinel of the source. -/
def prevSourceInt (srcs : List (Nat × Nat)) (searchFrom : Nat) : Int :=
  match prevSourcePair srcs searchFrom with | some sp => (sp.1 : Int) | none => -1

/-- `prev_source_end` with the `-1` sentinel of the source. -/
def prevSourceEndInt (srcs : List (Nat × Nat)) (searchFrom : Nat) : Int :=
  match prevSourcePair srcs searchFrom with | some sp => (sp.2 : Int) | none => -1

/-- `prev_blank = text.rfind("\n\n", 0, search_from)` with the `-1` sentinel. -/
def prevBlankInt (t : List Char) (searchFrom : Nat) : Int :=
  match rfind2NL t searchFrom with | some i => (i : Int) | none => -1

/-- The backward-anchoring step of `build_title_location`: the later of the
previous terminator span and the previous blank-line gap, with `-1`
sentinels exactly as in the source. -/
def anchorStart (t : List Char) (srcs : List (Nat × Nat)) (searchFrom : Nat) : Nat :=
  if max (prevSourceInt srcs searchFrom) (prevBlankInt t searchFrom) = -1 then 0
  else if prevSourceInt srcs searchFrom > prevBlankInt t searchFrom then
    (prevSourceEndInt srcs searchFrom).toNat
  else (prevBlankInt t searchFrom + 2).toNat

/-- The forward-refinement step: the last separator position contributed by
interior blank-line gaps and interior section-header matches. -/
def forwardSep (t : List Char) (searchFrom ts1 : Nat) : Nat :=
  (headerSpansIn t ts1 searchFrom).foldl
    (fun ls se => if hdrCandidate t searchFrom se.2 > ls then
        hdrCandidate t searchFrom se.2 else ls)
    (blankLoopGo t searchFrom ts1 ts1 (searchFrom + 1))

/-- The resolved `title_start` of `build_title_location` (writing `ts1` for
the whitespace-skipped anchor position). -/
def resolveTitleStart (t : List Char) (srcs : List (Nat × Nat)) (searchFrom : Nat) : Nat :=
  if forwardSep t searchFrom (skipWs t searchFrom (anchorStart t srcs searchFrom)) >
      skipWs t searchFrom (anchorStart t srcs searchFrom) then
    skipWs t searchFrom
      (forwardSep t searchFrom (skipWs t searchFrom (anchorStart t srcs searchFrom)))
  else skipWs t searchFrom (anchorStart t srcs searchFrom)

/-- `build_title_location(m_start, m_end, date_str)`. -/
def build_title_location (t : List Char) (srcs : List (Nat × Nat))
    (mStart mEnd : Nat) (dateStr : List Char) : TitleLoc :=
  { title_start := resolveTitleStart t srcs mStart, title_end := mEnd,
    raw_title := sliceOf t (resolveTitleStart t srcs mStart) mEnd, date := dateStr }

/-! ## Title-location collection, sorting, assembly, filtering -/

/-- Stable insertion (ascending by `title_start`; a later element never passes
an equal earlier one), mirroring Python's stable `list.sort`. -/
def insertTL (x : TitleLoc) : List TitleLoc → List TitleLoc
  | [] => [x]
  | y :: rest =>
    if y.title_start < x.title_start then y :: insertTL x rest
    else x :: y :: rest

def sortTLs : List TitleLoc → List TitleLoc
  | [] => []
  | x :: rest => insertTL x (sortTLs rest)

/-- Step 1a of `find_incidents`: one location per full-date match. -/
def fullLocsOf (t : List Char) : List TitleLoc :=
  (fullDateMatches t (find_end_boundary t)).map fun m =>
    build_title_location t (sourcePositions t (find_end_boundary t)) m.start m.stop m.date

/-- The skip test of step 1b:
`any(fs <= m.start() <= fe for fs, fe in full_date_spans)` (closed interval). -/
def overlapsFullSpan (t : List Char) (m : DateMatch) : Bool :=
  (fullDateMatches t (find_end_boundary t)).any fun fd =>
    fd.start ≤ m.start && m.start ≤ fd.stop

/-- Step 1b of `find_incidents`: the year-only matches that survive both the
full-date-overlap skip and the domain-keyword pre-filter on the inferred raw
title. -/
def yearOnlyKept (t : List Char) : List DateMatch :=
  (yearOnlyMatches t (find_end_boundary t)).filter fun m =>
    !overlapsFullSpan t m &&
      hasKeyword (build_title_location t (sourcePositions t (find_end_boundary t))
        m.start m.stop m.date).raw_title

/-- Steps 1a/1b of `find_incidents`: full-date locations, then surviving
year-only locations, sorted (stably) by `title_start`. -/
def titleLocations (t : List Char) : List TitleLoc :=
  sortTLs (fullLocsOf t ++ (yearOnlyKept t).map fun m =>
    build_title_location t (sourcePositions t (find_end_boundary t)) m.start m.stop m.date)

structure Incident where
  title : String
  body : String
  date : String
  category : String
  full_text : String
  deriving Repr, DecidableEq

/-- An output record annotated with the `title_start` and matched terminator
span it was built from (data the Python dict drops after assembly). -/
structure Assembled where
  title_start : Nat
  src : Nat × Nat
  inc : Incident
  deriving Repr, DecidableEq

/-- First source span starting strictly after `te` whose start is unused. -/
def findSrcMatch : List (Nat × Nat) → List Nat → Nat → Option (Nat × Nat)
  | [], _, _ => none
  | sp :: rest, used, te =>
    if te < sp.1 && !(used.contains sp.1) then some sp
    else findSrcMatch rest used te

/-- The category loop: last header strictly before `ts`, with `break` at the
first header at or past `ts` (headers are in ascending position order). -/
def categoryGo : List (Nat × List Char) → List Char → Nat → List Char
  | [], acc, _ => acc
  | (p, h) :: rest, acc, ts => if p < ts then categoryGo rest h ts else acc

def mkIncident (t : List Char) (headers : List (Nat × List Char))
    (tl : TitleLoc) (m : Nat × Nat) : Incident :=
  { title := String.mk (clean_title tl.raw_title)
    body := String.mk (stripChars (sliceOf t tl.title_end m.1))
    date := String.mk tl.date
    category := String.mk (categoryGo headers [] tl.title_start)
    full_text := String.mk (stripChars (sliceOf t tl.title_start m.2)) }

/-- Step 3 of `find_incidents`: pair each title, in order, with the first
unclaimed following terminator; claim it; titles with no match are skipped. -/
def assembleGo (t : List Char) (srcs : List (Nat × Nat))
    (headers : List (Nat × List Char)) : List TitleLoc → List Nat → List Assembled
  | [], _ => []
  | tl :: rest, used =>
    match findSrcMatch srcs used tl.title_end with
    | none => assembleGo t srcs headers rest used
    | some m =>
      ⟨tl.title_start, m, mkIncident t headers tl m⟩ ::
        assembleGo t srcs headers rest (m.1 :: used)

def incidentsAssembled (t : List Char) : List Assembled :=
  assembleGo t (sourcePositions t (find_end_boundary t))
    (find_section_headers t) (titleLocations t) []

/-- Step 4 of `find_incidents`: keep a record iff its cleaned title has at
most 300 characters and contains a domain keyword. -/
def keepIncident (i : Incident) : Bool :=
  i.title.length ≤ 300 && hasKeyword i.title.data

def incidentsFiltered (t : List Char) : List Assembled :=
  (incidentsAssembled t).filter fun a => keepIncident a.inc

/-- `find_incidents`: the final record list (the annotations dropped). -/
def find_incidents (t : List Char) : List Incident :=
  (incidentsFiltered t).map Assembled.inc

/-! ## Auxiliary notions used only by theorem statements -/

/-- The line containing position `p`: characters from `p` to the next newline
(or to the end of the stream). -/
def lineSegOf (t : List Char) (p : Nat) : List Char :=
  sliceOf t p (match nlFrom t p with | some j => j | none => t.length)

/-- Adjacent characters are not both spaces (the normal form established by
the space-collapsing step of `clean_title`). -/
def noTwoSp (a b : Char) : Prop := ¬(a = ' ' ∧ b = ' ')

/-- The heading-line predicate exactly as the specification words it (kept
separate from the embedding of `SECTION_HEADER_RE`, for comparison): a line
consisting entirely of uppercase letters, digits and the restricted
punctuation set, of length at least 5. -/
def specHeaderLineOk (line : List Char) : Bool :=
  line.all hdrClassCh && 5 ≤ line.length

/-! ## Concrete streams used by scenario theorems and witnesses -/

def c1text : List Char :=
  "BANKING\n\nJohn Doe stole funds - March 3, 2020\nHe pled guilty.\n\n(Source)\n".data

def c3text : List Char :=
  "fraud - March 3, 2020 theft - April 5, 2021\nbody\n\n(Source) aaaaaaaaaaaaaaaaaaaaaaa (Source)".data

def c4text : List Char :=
  "SOURCES FOR INSIDER THREAT INCIDENT POSTINGS\nFRAUD THINGS\n".data

def c5text : List Char :=
  "John stole funds - March 3, 2020\nBody text here.\n".data

def c7text : List Char :=
  "he stole funds - March 3, 2020(2021)\nBody.\n\n(Source)\n".data

def c9text : List Char := "1ABCD\n".data

def c10text : List Char := "he stole it - 2010\nrest (1875) here\n\n(Source)\n".data

/-! ## C1 — scenario 1 -/

/-- C1: on the stream
`"BANKING\n\nJohn Doe stole funds - March 3, 2020\nHe pled guilty.\n\n(Source)\n"`,
`find_incidents` returns exactly one record, with title
`"John Doe stole funds - March 3, 2020"`, category `"BANKING"`, date
`"March 3, 2020"` and body `"He pled guilty."`. -/
theorem C1_scenario_banking :
    (find_incidents c1text).map (fun i => (i.title, i.category, i.date, i.body)) =
      [("John Doe stole funds - March 3, 2020", "BANKING", "March 3, 2020",
        "He pled guilty.")] := by
  decide

/-! ## Counterexample for C6 -/

/-- C6 fails as stated: cleaning `"AB\nCDEFG"` once yields `"AB CDEFG"`, a
header-shaped line, which the second cleaning pass deletes entirely. -/
theorem C6_counterexample :
    clean_title (clean_title "AB\nCDEFG".data) ≠ clean_title "AB\nCDEFG".data := by
  decide

/-! ## Counterexample for C3 -/

/-- C3 fails as stated: on `c3text` two records are emitted whose
`title_start` are both `0`, so consecutive records are not strictly
increasing. -/
theorem C3_counterexample :
    ¬ (((incidentsFiltered c3text).map fun a => a.title_start).Pairwise (· < ·)) := by
  have h : ((incidentsFiltered c3text).map fun a => a.title_start) = [0, 0] := by decide
  rw [h]
  simp

/-! ## Counterexample for C4 -/

/-- C4 fails as stated: section-heading scanning is not restricted to
`[0, boundary)` — on `c4text` the trailer marker sits at offset 0, yet
`find_section_headers` still reports headings at and beyond the boundary. -/
theorem C4_counterexample :
    ∃ ph ∈ find_section_headers c4text, find_end_boundary c4text ≤ ph.1 := by
  decide

/-! ## Assembly lemmas (used by C2, C3, C5, C7) -/

theorem findSrcMatch_some {srcs : List (Nat × Nat)} {used : List Nat} {te : Nat}
    {m : Nat × Nat} (h : findSrcMatch srcs used te = some m) :
    m ∈ srcs ∧ te < m.1 ∧ used.contains m.1 = false := by
  induction srcs with
  | nil => simp [findSrcMatch] at h
  | cons sp rest ih =>
    rw [findSrcMatch] at h
    split at h
    · rename_i hc
      injection h with h
      subst h
      simp only [Bool.and_eq_true, decide_eq_true_eq, Bool.not_eq_true'] at hc
      exact ⟨List.mem_cons_self _ _, hc.1, hc.2⟩
    · obtain ⟨h1, h2, h3⟩ := ih h
      exact ⟨List.mem_cons_of_mem _ h1, h2, h3⟩

theorem assembleGo_src_inv (t : List Char) (srcs : List (Nat × Nat))
    (headers : List (Nat × List Char)) (tls : List TitleLoc) :
    ∀ used : List Nat,
      ((assembleGo t srcs headers tls used).Pairwise fun a b => a.src.1 ≠ b.src.1) ∧
      ∀ a ∈ assembleGo t srcs headers tls used, used.contains a.src.1 = false := by
  induction tls with
  | nil => intro used; simp [assembleGo]
  | cons tl rest ih =>
    intro used
    rw [assembleGo]
    cases hm : findSrcMatch srcs used tl.title_end with
    | none => exact ih used
    | some m =>
      obtain ⟨-, -, hnotused⟩ := findSrcMatch_some hm
      refine ⟨List.Pairwise.cons ?_ (ih (m.1 :: used)).1, ?_⟩
      · intro b hb heq
        have := (ih (m.1 :: used)).2 b hb
        simp only [List.contains_cons, Bool.or_eq_false_iff, beq_eq_false_iff_ne] at this
        exact this.1 heq.symm
      · intro a ha
        rcases List.mem_cons.mp ha with h | h
        · subst h; exact hnotused
        · have := (ih (m.1 :: used)).2 a h
          simp only [List.contains_cons, Bool.or_eq_false_iff] at this
          exact this.2

theorem assembleGo_mem_ts {t : List Char} {srcs : List (Nat × Nat)}
    {headers : List (Nat × List Char)} {tls : List TitleLoc} :
    ∀ {used : List Nat} {a : Assembled}, a ∈ assembleGo t srcs headers tls used →
      ∃ tl ∈ tls, a.title_start = tl.title_start := by
  induction tls with
  | nil => intro used a h; simp [assembleGo] at h
  | cons tl rest ih =>
    intro used a h
    rw [assembleGo] at h
    cases hm : findSrcMatch srcs used tl.title_end with
    | none =>
      rw [hm] at h
      obtain ⟨tl', h1, h2⟩ := ih h
      exact ⟨tl', List.mem_cons_of_mem _ h1, h2⟩
    | some m =>
      rw [hm] at h
      rcases List.mem_cons.mp h with h | h
      · subst h; exact ⟨tl, List.mem_cons_self _ _, rfl⟩
      · obtain ⟨tl', h1, h2⟩ := ih h
        exact ⟨tl', List.mem_cons_of_mem _ h1, h2⟩

theorem assembleGo_pairwise_ts {t : List Char} {srcs : List (Nat × Nat)}
    {headers : List (Nat × List Char)} {tls : List TitleLoc}
    (htls : tls.Pairwise fun x y => x.title_start ≤ y.title_start) :
    ∀ used : List Nat,
      (assembleGo t srcs headers tls used).Pairwise
        fun a b => a.title_start ≤ b.title_start := by
  induction tls with
  | nil => intro used; simp [assembleGo]
  | cons tl rest ih =>
    intro used
    rw [assembleGo]
    have htl := List.pairwise_cons.mp htls
    cases hm : findSrcMatch srcs used tl.title_end with
    | none => exact ih htl.2 used
    | some m =>
      refine List.Pairwise.cons ?_ (ih htl.2 (m.1 :: used))
      intro b hb
      obtain ⟨tl', h1, h2⟩ := assembleGo_mem_ts hb
      simpa [h2] using htl.1 tl' h1

theorem mem_insertTL {x y : TitleLoc} {l : List TitleLoc} :
    y ∈ insertTL x l ↔ y = x ∨ y ∈ l := by
  induction l with
  | nil => simp [insertTL]
  | cons z rest ih =>
    rw [insertTL]
    split
    · simp only [List.mem_cons, ih]
      tauto
    · simp only [List.mem_cons]

theorem insertTL_pairwise {x : TitleLoc} {l : List TitleLoc}
    (h : l.Pairwise fun a b => a.title_start ≤ b.title_start) :
    (insertTL x l).Pairwise fun a b => a.title_start ≤ b.title_start := by
  induction l with
  | nil => simp [insertTL]
  | cons z rest ih =>
    rw [insertTL]
    have hz := List.pairwise_cons.mp h
    split
    · rename_i hlt
      refine List.Pairwise.cons ?_ (ih hz.2)
      intro b hb
      rcases mem_insertTL.mp hb with h1 | h1
      · subst h1; omega
      · exact hz.1 b h1
    · rename_i hge
      refine List.Pairwise.cons ?_ h
      intro b hb
      rcases List.mem_cons.mp hb with h1 | h1
      · subst h1; omega
      · have := hz.1 b h1; omega

theorem sortTLs_pairwise (l : List TitleLoc) :
    (sortTLs l).Pairwise fun a b => a.title_start ≤ b.title_start := by
  induction l with
  | nil => simp [sortTLs]
  | cons x rest ih => exact insertTL_pairwise ih

theorem mem_sortTLs {y : TitleLoc} {l : List TitleLoc} :
    y ∈ sortTLs l ↔ y ∈ l := by
  induction l with
  | nil => simp [sortTLs]
  | cons x rest ih =>
    rw [sortTLs, mem_insertTL, ih]
    simp [List.mem_cons, eq_comm]

/-! ## C2 — terminator exclusivity -/

/-- C2: for every input stream, no two surviving records (the assembled,
filtered records that `find_incidents` returns) are closed by the same
terminator span: matched spans are pairwise distinct. -/
theorem C2_terminator_exclusivity (t : List Char) :
    (incidentsFiltered t).Pairwise fun a b => a.src ≠ b.src := by
  have h1 := (assembleGo_src_inv t (sourcePositions t (find_end_boundary t))
    (find_section_headers t) (titleLocations t) []).1
  have h2 : (incidentsFiltered t).Pairwise fun a b => a.src.1 ≠ b.src.1 :=
    List.Pairwise.sublist (List.filter_sublist _) h1
  exact h2.imp fun hne heq => hne (by rw [heq])

/-! ## C3 — order of emission -/

/-- C3, amended: output records are emitted in ascending (non-strict)
`title_start` order.  (Strict ascent fails: see the counterexample.) -/
theorem C3_order_nondecreasing (t : List Char) :
    (incidentsFiltered t).Pairwise fun a b => a.title_start ≤ b.title_start := by
  have hs : (titleLocations t).Pairwise fun x y => x.title_start ≤ y.title_start :=
    sortTLs_pairwise _
  have h1 := @assembleGo_pairwise_ts t (sourcePositions t (find_end_boundary t))
    (find_section_headers t) (titleLocations t) hs []
  exact List.Pairwise.sublist (List.filter_sublist _) h1

/-! ## C5 — silent drop of unmatched titles -/

theorem assembleGo_no_srcs (t : List Char) (headers : List (Nat × List Char)) :
    ∀ (tls : List TitleLoc) (used : List Nat),
      assembleGo t [] headers tls used = [] := by
  intro tls
  induction tls with
  | nil => intro used; rfl
  | cons tl rest ih => intro used; rw [assembleGo]; exact ih used

/-- C5: a resolved title with no unclaimed terminator span starting strictly
after its `title_end` is silently dropped — the assembly step emits nothing
for it and continues; in particular a stream whose incident region contains no
terminator marker at all yields zero records (and no error: the embedding is
total). -/
theorem C5_silent_drop :
    (∀ (t : List Char) (srcs : List (Nat × Nat)) (headers : List (Nat × List Char))
        (tl : TitleLoc) (rest : List TitleLoc) (used : List Nat),
        findSrcMatch srcs used tl.title_end = none →
        assembleGo t srcs headers (tl :: rest) used =
          assembleGo t srcs headers rest used) ∧
    ∀ t : List Char, rawSourceList t (find_end_boundary t) = [] →
      find_incidents t = [] := by
  constructor
  · intro t srcs headers tl rest used h
    rw [assembleGo, h]
  · intro t h
    have hsp : sourcePositions t (find_end_boundary t) = [] := by
      rw [sourcePositions, h]; rfl
    rw [find_incidents, incidentsFiltered, incidentsAssembled, hsp,
      assembleGo_no_srcs]
    rfl

/-- Witness for C5 (both components instantiated at concrete inputs). -/
theorem C5_witness :
    find_incidents c5text = [] ∧
      assembleGo [] [] [] [⟨0, 0, [], []⟩] [] = assembleGo [] [] [] [] [] :=
  ⟨C5_silent_drop.2 c5text (by decide),
   C5_silent_drop.1 [] [] [] ⟨0, 0, [], []⟩ [] [] rfl⟩

/-! ## C8 — totality / empty result on absence of matches -/

/-- C8: the embedding of `find_incidents` is a total function into record
lists (no exceptional path exists); when neither date scanner produces a
match, the result is the empty list, not an error. -/
theorem C8_no_matches_empty (t : List Char)
    (h1 : fullDateMatches t (find_end_boundary t) = [])
    (h2 : yearOnlyMatches t (find_end_boundary t) = []) :
    find_incidents t = [] := by
  have htl : titleLocations t = [] := by
    rw [titleLocations, fullLocsOf, yearOnlyKept, h1, h2]
    rfl
  rw [find_incidents, incidentsFiltered, incidentsAssembled, htl, assembleGo]
  rfl

/-- Witness for C8 at the matchless stream `"hello"`. -/
theorem C8_witness : find_incidents "hello".data = [] :=
  C8_no_matches_empty "hello".data (by decide) (by decide)

/-! ## C7 — full-date precedence over year-only matches -/

/-- C7: a year-only date match whose start lies within a full-date match's
closed span `[start, stop]` — in particular one wholly inside that span, since
a match's start does not exceed its stop — is discarded and contributes no
title location, while every full-date match always contributes its location. -/
theorem C7_full_date_precedence (t : List Char) (m fd : DateMatch)
    (hm : m ∈ yearOnlyMatches t (find_end_boundary t))
    (hfd : fd ∈ fullDateMatches t (find_end_boundary t))
    (h1 : fd.start ≤ m.start) (h2 : m.start ≤ fd.stop) :
    m ∉ yearOnlyKept t ∧
      build_title_location t (sourcePositions t (find_end_boundary t))
        fd.start fd.stop fd.date ∈ titleLocations t := by
  refine ⟨fun hk => ?_, ?_⟩
  · have hmem := List.of_mem_filter hk
    have hov : overlapsFullSpan t m = true := by
      rw [overlapsFullSpan, List.any_eq_true]
      exact ⟨fd, hfd, by simp [h1, h2]⟩
    rw [hov] at hmem
    simp at hmem
  · rw [titleLocations, mem_sortTLs]
    apply List.mem_append_left
    rw [fullLocsOf]
    exact List.mem_map_of_mem _ hfd

/-- Witness for C7: in `c7text` the year-only match `(2021)` starts exactly at
the end of the full-date span of `- March 3, 2020`. -/
theorem C7_witness :
    (⟨30, 36, "2021".data⟩ : DateMatch) ∉ yearOnlyKept c7text ∧
      build_title_location c7text (sourcePositions c7text (find_end_boundary c7text))
        15 30 "March 3, 2020".data ∈ titleLocations c7text :=
  C7_full_date_precedence c7text ⟨30, 36, "2021".data⟩ ⟨15, 30, "March 3, 2020".data⟩
    (by decide) (by decide) (by decide) (by decide)

/-! ## Character/run/slice lemmas (used by C4, C9, C10) -/

theorem charIn_eq_head (t : List Char) (endPos i : Nat) :
    charIn t endPos i = ((t.take endPos).drop i).head? := by
  rw [charIn, List.head?_eq_getElem?, List.getElem?_drop, Nat.add_zero,
    List.getElem?_take]

theorem charIn_some {t : List Char} {endPos i : Nat} {c : Char}
    (h : charIn t endPos i = some c) : t[i]? = some c ∧ i < endPos := by
  rw [charIn] at h
  by_cases hlt : i < endPos
  · rw [if_pos hlt] at h; exact ⟨h, hlt⟩
  · rw [if_neg hlt] at h; cases h

theorem runGo_head {P : Char → Bool} {l : List Char} (h : 1 ≤ runGo P l) :
    ∃ c rest, l = c :: rest ∧ P c = true ∧ runGo P l = runGo P rest + 1 := by
  cases l with
  | nil => simp [runGo] at h
  | cons c rest =>
    rw [runGo] at h ⊢
    by_cases hc : P c = true
    · exact ⟨c, rest, rfl, hc, by rw [if_pos hc]⟩
    · rw [if_neg hc] at h; omega

theorem runAt_two_digits {t : List Char} {endPos i : Nat}
    (h : 2 ≤ runAt digitCh t endPos i) :
    ∃ c1 c2, charIn t endPos i = some c1 ∧ charIn t endPos (i + 1) = some c2 ∧
      digitCh c1 = true ∧ digitCh c2 = true := by
  rw [runAt] at h
  obtain ⟨c1, r1, he1, hp1, hr1⟩ :=
    runGo_head (P := digitCh) (l := (t.take endPos).drop i) (by omega)
  rw [hr1] at h
  obtain ⟨c2, r2, he2, hp2, hr2⟩ := runGo_head (P := digitCh) (l := r1) (by omega)
  have htl : (t.take endPos).drop (i + 1) = r1 := by
    have := congrArg List.tail he1
    simpa [List.tail_drop] using this
  refine ⟨c1, c2, ?_, ?_, hp1, hp2⟩
  · rw [charIn_eq_head, he1]; rfl
  · rw [charIn_eq_head, htl, he2]; rfl

theorem digit_not_ws {c : Char} (h : digitCh c = true) : pyWs c = false := by
  rw [digitCh, Bool.and_eq_true, decide_eq_true_eq, decide_eq_true_eq] at h
  obtain ⟨h0, h9⟩ := h
  have hne : ∀ x : Char, (x < '0' ∨ '9' < x) → decide (c = x) = false := by
    intro x hx
    apply decide_eq_false
    intro he
    subst he
    rcases hx with hx | hx
    · exact absurd h0 (not_le.mpr hx)
    · exact absurd h9 (not_le.mpr hx)
  have hr : (decide (' ' ≤ c) && decide (c ≤ ' ')) = false := by
    have hnot : ¬ (' ' ≤ c) := fun hc => absurd (le_trans hc h9) (by decide)
    simp [hnot]
  rw [pyWs, hne ' ' (by decide), hne '\t' (by decide), hne '\n' (by decide),
    hne '\r' (by decide), hne '\x0b' (by decide), hne '\x0c' (by decide),
    hne '\x1c' (by decide), hne '\x1d' (by decide), hne '\x1e' (by decide),
    hne '\x1f' (by decide), hne '\x85' (by decide), hne '\xa0' (by decide),
    hne ' ' (by decide), hr, hne ' ' (by decide),
    hne ' ' (by decide), hne ' ' (by decide), hne ' ' (by decide),
    hne '　' (by decide)]
  rfl

theorem sliceOf_four {t : List Char} {i : Nat} {a b c d : Char}
    (ha : t[i]? = some a) (hb : t[i + 1]? = some b) (hc : t[i + 2]? = some c)
    (hd : t[i + 3]? = some d) : sliceOf t i (i + 4) = [a, b, c, d] := by
  apply List.ext_getElem?
  intro n
  rw [sliceOf, List.getElem?_drop, List.getElem?_take]
  match n with
  | 0 => rw [if_pos (by omega)]; simpa using ha
  | 1 => rw [if_pos (by omega)]; simpa using hb
  | 2 => rw [if_pos (by omega)]; simpa using hc
  | 3 => rw [if_pos (by omega)]; simpa using hd
  | n + 4 => rw [if_neg (by omega)]; rfl

theorem dropWhile_of_no {P : Char → Bool} {l : List Char}
    (h : ∀ c ∈ l, P c = false) : l.dropWhile P = l := by
  cases l with
  | nil => rfl
  | cons c rest =>
    rw [List.dropWhile_cons, h c (List.mem_cons_self _ _)]
    simp

theorem stripChars_of_no_ws {l : List Char} (h : ∀ c ∈ l, pyWs c = false) :
    stripChars l = l := by
  rw [stripChars, stripEnd, dropWhile_of_no h, dropWhile_of_no (by simpa using h),
    List.reverse_reverse]

/-! ## C10 — year-only years are confined to 19xx/20xx -/

theorem matchYearAlt1_year {t : List Char} {endPos p e ys : Nat}
    (h : matchYearAlt1 t endPos p = some (e, ys)) :
    yearHere t endPos ys = true := by
  unfold matchYearAlt1 at h
  split at h
  · exact Option.noConfusion h
  · simp only [] at h
    split at h
    · split at h
      · split at h
        · rename_i hyear
          split at h
          · injection h with h2
            injection h2 with h3 h4
            subst h4
            exact hyear
          · exact Option.noConfusion h
        · exact Option.noConfusion h
      · exact Option.noConfusion h
    · exact Option.noConfusion h

theorem matchYearAlt2_year {t : List Char} {endPos p e ys : Nat}
    (h : matchYearAlt2 t endPos p = some (e, ys)) :
    yearHere t endPos ys = true := by
  unfold matchYearAlt2 at h
  split at h
  · rename_i hcond
    injection h with h2
    injection h2 with h3 h4
    subst h4
    simp only [Bool.and_eq_true] at hcond
    exact hcond.1.2
  · exact Option.noConfusion h

theorem matchYearOnlyAt_year {t : List Char} {endPos p e ys : Nat}
    (h : matchYearOnlyAt t endPos p = some (e, ys)) :
    yearHere t endPos ys = true := by
  unfold matchYearOnlyAt at h
  cases h1 : matchYearAlt1 t endPos p with
  | some r =>
    rw [h1] at h
    injection h with h2
    subst h2
    exact matchYearAlt1_year h1
  | none =>
    rw [h1] at h
    exact matchYearAlt2_year h

theorem scanYearOnlyGo_mem {t : List Char} {endPos : Nat} :
    ∀ {fuel p : Nat} {m : DateMatch}, m ∈ scanYearOnlyGo t endPos p fuel →
      ∃ ys, matchYearOnlyAt t endPos m.start = some (m.stop, ys) ∧
        m.date = stripChars (sliceOf t ys (ys + 4)) := by
  intro fuel
  induction fuel with
  | zero => intro p m h; simp [scanYearOnlyGo] at h
  | succ fuel ih =>
    intro p m h
    rw [scanYearOnlyGo] at h
    split at h
    · cases hm : matchYearOnlyAt t endPos p with
      | none => rw [hm] at h; exact ih h
      | some r =>
        obtain ⟨e, ys⟩ := r
        rw [hm] at h
        rcases List.mem_cons.mp h with h | h
        · subst h; exact ⟨ys, hm, rfl⟩
        · exact ih h
    · simp at h

/-- C10: every year-only date span stored by the scanner carries a year whose
first two digits are `19` or `20`; a dash- or parenthesis-year outside
1900–2099 therefore never yields a `DateSpan` (and hence no record). -/
theorem C10_year_range (t : List Char) (endPos : Nat) (m : DateMatch)
    (hm : m ∈ yearOnlyMatches t endPos) :
    m.date.take 2 = ['1', '9'] ∨ m.date.take 2 = ['2', '0'] := by
  obtain ⟨ys, hmt, hdate⟩ := scanYearOnlyGo_mem hm
  have hy := matchYearOnlyAt_year hmt
  rw [yearHere, Bool.and_eq_true, Bool.or_eq_true] at hy
  obtain ⟨h1920, hrun⟩ := hy
  have hrun' : 2 ≤ runAt digitCh t endPos (ys + 2) := by
    simpa using hrun
  obtain ⟨c3, c4, hc3, hc4, hd3, hd4⟩ := runAt_two_digits hrun'
  have hc3' := charIn_some hc3
  have hc4' : t[ys + 3]? = some c4 := by
    have := (charIn_some hc4).1
    simpa [Nat.add_assoc] using this
  rcases h1920 with h19 | h20
  · left
    simp only [litHere, Bool.and_eq_true, decide_eq_true_eq] at h19
    obtain ⟨ha, hb, -⟩ := h19
    have ha' := charIn_some ha
    have hb' := charIn_some hb
    rw [hdate, sliceOf_four ha'.1 hb'.1 hc3'.1 hc4',
      stripChars_of_no_ws (by
        intro c hcm
        simp only [List.mem_cons, List.not_mem_nil, or_false] at hcm
        rcases hcm with rfl | rfl | rfl | rfl
        · decide
        · decide
        · exact digit_not_ws hd3
        · exact digit_not_ws hd4)]
    rfl
  · right
    simp only [litHere, Bool.and_eq_true, decide_eq_true_eq] at h20
    obtain ⟨ha, hb, -⟩ := h20
    have ha' := charIn_some ha
    have hb' := charIn_some hb
    rw [hdate, sliceOf_four ha'.1 hb'.1 hc3'.1 hc4',
      stripChars_of_no_ws (by
        intro c hcm
        simp only [List.mem_cons, List.not_mem_nil, or_false] at hcm
        rcases hcm with rfl | rfl | rfl | rfl
        · decide
        · decide
        · exact digit_not_ws hd3
        · exact digit_not_ws hd4)]
    rfl

/-- Witness for C10 at a concrete stream: the match `- 2010` inside
`c10text` carries a year with leading `20`. -/
theorem C10_witness :
    (⟨12, 18, "2010".data⟩ : DateMatch).date.take 2 = ['1', '9'] ∨
      (⟨12, 18, "2010".data⟩ : DateMatch).date.take 2 = ['2', '0'] :=
  C10_year_range c10text c10text.length ⟨12, 18, "2010".data⟩ (by decide)

/-! ## Bound lemmas for the scanners (used by C4) -/

theorem runGo_le_length (P : Char → Bool) (l : List Char) : runGo P l ≤ l.length := by
  induction l with
  | nil => simp [runGo]
  | cons c rest ih =>
    rw [runGo]
    split
    · simpa using ih
    · simp

theorem runAt_le {P : Char → Bool} {t : List Char} {endPos i : Nat} :
    runAt P t endPos i ≤ endPos - i := by
  have h := runGo_le_length P ((t.take endPos).drop i)
  rw [runAt]
  calc runGo P ((t.take endPos).drop i) ≤ ((t.take endPos).drop i).length := h
    _ ≤ endPos - i := by simp [List.length_drop, List.length_take]; omega

theorem litHere_bound {t : List Char} {endPos : Nat} :
    ∀ {pat : List Char} {i : Nat}, litHere t endPos pat i = true →
      i + pat.length ≤ endPos ∨ pat = [] := by
  intro pat
  induction pat with
  | nil => intro i _; right; rfl
  | cons c rest ih =>
    intro i h
    rw [litHere, Bool.and_eq_true] at h
    obtain ⟨h1, h2⟩ := h
    have hi : i < endPos := (charIn_some (by simpa using h1)).2
    left
    rcases ih h2 with h3 | h3
    · simpa [Nat.add_comm, Nat.add_left_comm] using h3
    · subst h3; simpa using hi

theorem matchSourceAt_bound {t : List Char} {endPos p e : Nat}
    (h : matchSourceAt t endPos p = some e) : p < endPos ∧ p < e ∧ e ≤ endPos := by
  unfold matchSourceAt at h
  split at h
  · rename_i hopen
    simp only [] at h
    split at h
    · split at h
      · rename_i hclose
        injection h with h
        have := (charIn_some hclose).2
        omega
      · exact Option.noConfusion h
    · exact Option.noConfusion h
  · exact Option.noConfusion h

theorem scanSourceGo_bound {t : List Char} {endPos : Nat} :
    ∀ {fuel p : Nat} {sp : Nat × Nat}, sp ∈ scanSourceGo t endPos p fuel →
      sp.1 < endPos ∧ sp.1 < sp.2 ∧ sp.2 ≤ endPos := by
  intro fuel
  induction fuel with
  | zero => intro p sp h; simp [scanSourceGo] at h
  | succ fuel ih =>
    intro p sp h
    rw [scanSourceGo] at h
    split at h
    · cases hm : matchSourceAt t endPos p with
      | none => rw [hm] at h; exact ih h
      | some e =>
        rw [hm] at h
        rcases List.mem_cons.mp h with h | h
        · subst h
          obtain ⟨h1, h2, h3⟩ := matchSourceAt_bound hm
          exact ⟨h1, h2, h3⟩
        · exact ih h
    · simp at h

theorem coalesceGo_bound {Ps Pe : Nat → Prop} :
    ∀ (l acc : List (Nat × Nat)), (∀ x ∈ acc, Ps x.1 ∧ Pe x.2) →
      (∀ x ∈ l, Ps x.1 ∧ Pe x.2) → ∀ x ∈ coalesceGo acc l, Ps x.1 ∧ Pe x.2 := by
  intro l
  induction l with
  | nil =>
    intro acc hacc _ x hx
    rw [coalesceGo] at hx
    exact hacc x (List.mem_reverse.mp hx)
  | cons sp rest ih =>
    intro acc hacc hl x hx
    have hsp := hl sp (List.mem_cons_self _ _)
    have hrest : ∀ y ∈ rest, Ps y.1 ∧ Pe y.2 :=
      fun y hy => hl y (List.mem_cons_of_mem _ hy)
    cases acc with
    | nil =>
      rw [coalesceGo] at hx
      exact ih [sp] (by simpa using hsp) hrest x hx
    | cons last accRest =>
      rw [coalesceGo] at hx
      have hlast := hacc last (List.mem_cons_self _ _)
      have haccRest : ∀ y ∈ accRest, Ps y.1 ∧ Pe y.2 :=
        fun y hy => hacc y (List.mem_cons_of_mem _ hy)
      split at hx
      · refine ih _ ?_ hrest x hx
        intro y hy
        rcases List.mem_cons.mp hy with h | h
        · subst h; exact ⟨hlast.1, hsp.2⟩
        · exact haccRest y h
      · refine ih _ ?_ hrest x hx
        intro y hy
        rcases List.mem_cons.mp hy with h | h
        · subst h; exact hsp
        · rcases List.mem_cons.mp h with h | h
          · subst h; exact hlast
          · exact haccRest y h

theorem sourcePositions_bound {t : List Char} {endPos : Nat} :
    ∀ sp ∈ sourcePositions t endPos, sp.1 < endPos ∧ sp.2 ≤ endPos := by
  intro sp hsp
  rw [sourcePositions] at hsp
  refine @coalesceGo_bound (· < endPos) (· ≤ endPos)
    (rawSourceList t endPos) [] (by simp) ?_ sp hsp
  intro x hx
  obtain ⟨h1, -, h3⟩ := scanSourceGo_bound hx
  exact ⟨h1, h3⟩

theorem yearAfterWs_bound {t : List Char} {endPos u e : Nat}
    (h : yearAfterWs t endPos u = some e) : e ≤ endPos := by
  unfold yearAfterWs at h
  split at h
  · rename_i hd
    injection h with h
    have hle := @runAt_le digitCh t endPos (u + runAt pyWs t endPos u)
    omega
  · exact Option.noConfusion h

theorem sepThenYear_bound {t : List Char} {endPos s e : Nat}
    (h : sepThenYear t endPos s = some e) : e ≤ endPos := by
  unfold sepThenYear at h
  split at h
  · split at h
    · exact yearAfterWs_bound h
    · exact Option.noConfusion h
  · exact Option.noConfusion h

theorem afterDay_bound {t : List Char} {endPos s e : Nat}
    (h : afterDay t endPos s = some e) : e ≤ endPos := by
  unfold afterDay at h
  cases h1 : sepThenYear t endPos s with
  | some e' =>
    rw [h1] at h
    injection h with h
    subst h
    exact sepThenYear_bound h1
  | none =>
    rw [h1] at h
    exact yearAfterWs_bound h

theorem dayThenYear_bound {t : List Char} {endPos r e : Nat}
    (h : dayThenYear t endPos r = some e) : e ≤ endPos := by
  unfold dayThenYear at h
  split at h
  · exact Option.noConfusion h
  · split at h
    · cases h2 : afterDay t endPos (r + 2) with
      | some e' =>
        rw [h2] at h
        injection h with h
        subst h
        exact afterDay_bound h2
      | none =>
        rw [h2] at h
        exact afterDay_bound h
    · exact afterDay_bound h

theorem wsThenDay_bound {t : List Char} {endPos q2 e : Nat}
    (h : wsThenDay t endPos q2 = some e) : e ≤ endPos := by
  unfold wsThenDay at h
  split at h
  · exact dayThenYear_bound h
  · exact Option.noConfusion h

theorem afterMonth_bound {t : List Char} {endPos q1 e : Nat}
    (h : afterMonth t endPos q1 = some e) : e ≤ endPos := by
  unfold afterMonth at h
  split at h
  · exact wsThenDay_bound h
  · exact wsThenDay_bound h

theorem matchFullDateAt_bound {t : List Char} {endPos p : Nat} {r : Nat × Nat}
    (h : matchFullDateAt t endPos p = some r) : p < endPos ∧ r.1 ≤ endPos := by
  unfold matchFullDateAt at h
  split at h
  · exact Option.noConfusion h
  · rename_i c hc
    split at h
    · split at h
      · split at h
        · exact Option.noConfusion h
        · rename_i ml hml
          cases h2 : afterMonth t endPos
              (p + 1 + runAt pyWs t endPos (p + 1) + ml) with
          | some e =>
            rw [h2] at h
            injection h with h
            subst h
            exact ⟨(charIn_some hc).2, afterMonth_bound h2⟩
          | none => rw [h2] at h; exact Option.noConfusion h
      · exact Option.noConfusion h
    · exact Option.noConfusion h

theorem scanFullDateGo_bound {t : List Char} {endPos : Nat} :
    ∀ {fuel p : Nat} {m : DateMatch}, m ∈ scanFullDateGo t endPos p fuel →
      m.start < endPos ∧ m.stop ≤ endPos := by
  intro fuel
  induction fuel with
  | zero => intro p m h; simp [scanFullDateGo] at h
  | succ fuel ih =>
    intro p m h
    rw [scanFullDateGo] at h
    split at h
    · cases hm : matchFullDateAt t endPos p with
      | none => rw [hm] at h; exact ih h
      | some r =>
        obtain ⟨e, g1⟩ := r
        rw [hm] at h
        rcases List.mem_cons.mp h with h | h
        · subst h
          obtain ⟨h1, h2⟩ := matchFullDateAt_bound hm
          exact ⟨h1, h2⟩
        · exact ih h
    · simp at h

theorem dollarSearch_at {t : List Char} {endPos base : Nat} :
    ∀ {fuel s : Nat}, dollarSearch t endPos base fuel = some s →
      dollarAt t endPos (base + s) = true := by
  intro fuel
  induction fuel with
  | zero =>
    intro s h
    rw [dollarSearch] at h
    split at h
    · rename_i hd
      injection h with h
      subst h
      simpa using hd
    · exact Option.noConfusion h
  | succ fuel ih =>
    intro s h
    rw [dollarSearch] at h
    split at h
    · rename_i hd
      injection h with h
      subst h
      exact hd
    · exact ih h

theorem dollarAt_le {t : List Char} {endPos x : Nat} (h : dollarAt t endPos x = true) :
    x ≤ endPos := by
  rw [dollarAt, Bool.or_eq_true] at h
  rcases h with h | h
  · simp only [decide_eq_true_eq] at h; omega
  · exact Nat.le_of_lt (charIn_some (by simpa using h)).2

theorem matchYearAlt1_bound {t : List Char} {endPos p : Nat} {r : Nat × Nat}
    (h : matchYearAlt1 t endPos p = some r) : p < endPos ∧ r.1 ≤ endPos := by
  unfold matchYearAlt1 at h
  split at h
  · exact Option.noConfusion h
  · rename_i c hc
    split at h
    · simp only [] at h
      split at h
      · split at h
        · split at h
          · rename_i s hs
            injection h with h
            subst h
            refine ⟨(charIn_some hc).2, ?_⟩
            have := dollarAt_le (dollarSearch_at hs)
            omega
          · exact Option.noConfusion h
        · exact Option.noConfusion h
      · exact Option.noConfusion h
    · exact Option.noConfusion h

theorem matchYearAlt2_bound {t : List Char} {endPos p : Nat} {r : Nat × Nat}
    (h : matchYearAlt2 t endPos p = some r) : p < endPos ∧ r.1 ≤ endPos := by
  unfold matchYearAlt2 at h
  split at h
  · rename_i hcond
    injection h with h
    subst h
    simp only [Bool.and_eq_true, decide_eq_true_eq] at hcond
    have h5 := (charIn_some hcond.2).2
    exact ⟨(charIn_some hcond.1.1).2, by omega⟩
  · exact Option.noConfusion h

theorem matchYearOnlyAt_bound {t : List Char} {endPos p : Nat} {r : Nat × Nat}
    (h : matchYearOnlyAt t endPos p = some r) : p < endPos ∧ r.1 ≤ endPos := by
  unfold matchYearOnlyAt at h
  cases h1 : matchYearAlt1 t endPos p with
  | some r' =>
    rw [h1] at h
    injection h with h
    subst h
    exact matchYearAlt1_bound h1
  | none =>
    rw [h1] at h
    exact matchYearAlt2_bound h

theorem scanYearOnlyGo_bound {t : List Char} {endPos : Nat} :
    ∀ {fuel p : Nat} {m : DateMatch}, m ∈ scanYearOnlyGo t endPos p fuel →
      m.start < endPos ∧ m.stop ≤ endPos := by
  intro fuel
  induction fuel with
  | zero => intro p m h; simp [scanYearOnlyGo] at h
  | succ fuel ih =>
    intro p m h
    rw [scanYearOnlyGo] at h
    split at h
    · cases hm : matchYearOnlyAt t endPos p with
      | none => rw [hm] at h; exact ih h
      | some r =>
        obtain ⟨e, ys⟩ := r
        rw [hm] at h
        rcases List.mem_cons.mp h with h | h
        · subst h
          obtain ⟨h1, h2⟩ := matchYearOnlyAt_bound hm
          exact ⟨h1, h2⟩
        · exact ih h
    · simp at h

/-! ## Bound lemmas for title-start resolution (used by C4) -/

theorem rfind2NLGo_bound {b : Nat} :
    ∀ {l : List Char} {j : Nat} {best : Option Nat} {i : Nat},
      (∀ i0, best = some i0 → i0 + 2 ≤ b) →
      rfind2NLGo b l j best = some i → i + 2 ≤ b := by
  intro l
  induction l with
  | nil =>
    intro j best i hbest h
    rw [rfind2NLGo] at h
    exact hbest i h
  | cons c rest ih =>
    intro j best i hbest h
    rw [rfind2NLGo] at h
    split at h
    · rename_i hc
      simp only [Bool.and_eq_true, decide_eq_true_eq] at hc
      exact ih (fun i0 hi0 => by cases hi0; exact hc.1.1) h
    · exact ih hbest h

theorem rfind2NL_bound {t : List Char} {b i : Nat} (h : rfind2NL t b = some i) :
    i + 2 ≤ b :=
  rfind2NLGo_bound (fun _ h0 => Option.noConfusion h0) h

theorem find2NLGo_bound {b : Nat} :
    ∀ {l : List Char} {j i : Nat}, find2NLGo b l j = some i → i + 2 ≤ b := by
  intro l
  induction l with
  | nil => intro j i h; exact Option.noConfusion h
  | cons c rest ih =>
    intro j i h
    rw [find2NLGo] at h
    split at h
    · rename_i hc
      simp only [Bool.and_eq_true, decide_eq_true_eq] at hc
      injection h with h
      subst h
      exact hc.1.1
    · exact ih h

theorem skipWsGo_le {t : List Char} {sf : Nat} :
    ∀ {fuel p : Nat}, skipWsGo t sf p fuel ≤ max p sf := by
  intro fuel
  induction fuel with
  | zero => intro p; rw [skipWsGo]; omega
  | succ fuel ih =>
    intro p
    rw [skipWsGo]
    split
    · rename_i hp
      split
      · split
        · have := ih (p := p + 1); omega
        · omega
      · omega
    · omega

theorem skipWs_le {t : List Char} {sf p : Nat} : skipWs t sf p ≤ max p sf :=
  skipWsGo_le

theorem blankLoopGo_le {t : List Char} {sf : Nat} :
    ∀ {fuel scanPos lastSep : Nat},
      blankLoopGo t sf scanPos lastSep fuel ≤ max lastSep sf := by
  intro fuel
  induction fuel with
  | zero => intro scanPos lastSep; rw [blankLoopGo]; omega
  | succ fuel ih =>
    intro scanPos lastSep
    rw [blankLoopGo]
    cases hf : find2NL t scanPos sf with
    | none => exact Nat.le_max_left _ _
    | some bp =>
      have hb := find2NLGo_bound hf
      have hih := @ih (bp + 1) (bp + 2)
      show blankLoopGo t sf (bp + 1) (bp + 2) fuel ≤ max lastSep sf
      omega

theorem segEnd_le {t : List Char} {b p : Nat} : segEnd t b p ≤ b := by
  rw [segEnd]
  split <;> omega

theorem headerSpansIn_mem {t : List Char} {a b : Nat} {se : Nat × Nat}
    (h : se ∈ headerSpansIn t a b) :
    a ≤ se.1 ∧ se.1 < b ∧ se.2 ≤ b ∧ se.1 ∈ lineStarts t ∧
      hdrSegOk t b se.1 = true ∧ se.2 = segEnd t b se.1 := by
  rw [headerSpansIn] at h
  rw [List.mem_filterMap] at h
  obtain ⟨p, hp, hpse⟩ := h
  rw [List.mem_filter] at hp
  obtain ⟨hmem, hcond⟩ := hp
  simp only [Bool.and_eq_true, decide_eq_true_eq] at hcond
  split at hpse
  · rename_i hok
    injection hpse with hpse
    subst hpse
    exact ⟨hcond.1, hcond.2, segEnd_le, hmem, hok, rfl⟩
  · exact Option.noConfusion hpse

theorem hdrCandidate_le {t : List Char} {sf e : Nat} (he : e ≤ sf) :
    hdrCandidate t sf e ≤ sf := by
  rw [hdrCandidate]
  split
  · split <;> omega
  · omega

theorem hdrFold_le (t : List Char) (sf : Nat) :
    ∀ (l : List (Nat × Nat)) (init : Nat), (∀ se ∈ l, se.2 ≤ sf) →
      l.foldl (fun ls se => if hdrCandidate t sf se.2 > ls then
          hdrCandidate t sf se.2 else ls) init ≤ max init sf := by
  intro l
  induction l with
  | nil => intro init _; rw [List.foldl_nil]; omega
  | cons se rest ih =>
    intro init hml
    rw [List.foldl_cons]
    have hc : hdrCandidate t sf se.2 ≤ sf :=
      hdrCandidate_le (hml se (List.mem_cons_self _ _))
    have h2 := ih (if hdrCandidate t sf se.2 > init then hdrCandidate t sf se.2 else init)
      (fun y hy => hml y (List.mem_cons_of_mem _ hy))
    have h3 : (if hdrCandidate t sf se.2 > init then hdrCandidate t sf se.2 else init) ≤
        max init sf := by
      split <;> omega
    omega

theorem forwardSep_le {t : List Char} {sf ts1 : Nat} :
    forwardSep t sf ts1 ≤ max ts1 sf := by
  rw [forwardSep]
  have hbl : blankLoopGo t sf ts1 ts1 (sf + 1) ≤ max ts1 sf := blankLoopGo_le
  have h := hdrFold_le t sf (headerSpansIn t ts1 sf) (blankLoopGo t sf ts1 ts1 (sf + 1))
    (fun se hse => (headerSpansIn_mem hse).2.2.1)
  omega

/-! ## C4 — boundary respect (amended) -/

theorem prevSourcePair_mem {srcs : List (Nat × Nat)} {sf : Nat} {sp : Nat × Nat}
    (h : prevSourcePair srcs sf = some sp) : sp ∈ srcs := by
  unfold prevSourcePair at h
  split at h
  · exact Option.noConfusion h
  · exact List.getElem?_mem h

theorem prevSourceEndInt_toNat_le {srcs : List (Nat × Nat)} {sf B : Nat}
    (hsrc : ∀ sp ∈ srcs, sp.2 ≤ B) : (prevSourceEndInt srcs sf).toNat ≤ B := by
  unfold prevSourceEndInt
  cases hp : prevSourcePair srcs sf with
  | none => simp
  | some sp =>
    have hm := prevSourcePair_mem hp
    simpa using hsrc sp hm

theorem anchorStart_le {t : List Char} {srcs : List (Nat × Nat)} {sf B : Nat}
    (hsrc : ∀ sp ∈ srcs, sp.2 ≤ B) (hm : sf ≤ B) :
    anchorStart t srcs sf ≤ B := by
  rw [anchorStart]
  split
  · omega
  · split
    · exact prevSourceEndInt_toNat_le hsrc
    · rename_i hc1 hc2
      unfold prevBlankInt at hc1 hc2 ⊢
      cases hb : rfind2NL t sf with
      | none =>
        exfalso
        rw [hb] at hc1 hc2
        unfold prevSourceInt at hc1 hc2
        cases hp : prevSourcePair srcs sf with
        | none =>
          rw [hp] at hc1
          exact hc1 (by decide)
        | some sp =>
          rw [hp] at hc2
          simp only [] at hc2
          omega
      | some i =>
        have hble := rfind2NL_bound hb
        show ((i : Int) + 2).toNat ≤ B
        omega

theorem resolveTitleStart_le {t : List Char} {srcs : List (Nat × Nat)} {sf B : Nat}
    (hsrc : ∀ sp ∈ srcs, sp.2 ≤ B) (hm : sf ≤ B) :
    resolveTitleStart t srcs sf ≤ B := by
  rw [resolveTitleStart]
  have h1 : anchorStart t srcs sf ≤ B := anchorStart_le hsrc hm
  have h2 := @skipWs_le t sf (anchorStart t srcs sf)
  have h3 := @forwardSep_le t sf (skipWs t sf (anchorStart t srcs sf))
  have h4 := @skipWs_le t sf (forwardSep t sf (skipWs t sf (anchorStart t srcs sf)))
  split <;> omega

theorem titleLocations_ts_le {t : List Char} :
    ∀ tl ∈ titleLocations t, tl.title_start ≤ find_end_boundary t := by
  intro tl htl
  rw [titleLocations, mem_sortTLs] at htl
  have hsrc : ∀ sp ∈ sourcePositions t (find_end_boundary t),
      sp.2 ≤ find_end_boundary t :=
    fun sp hsp => (sourcePositions_bound sp hsp).2
  rcases List.mem_append.mp htl with h | h
  · rw [fullLocsOf] at h
    obtain ⟨m, hm, rfl⟩ := List.mem_map.mp h
    rw [fullDateMatches] at hm
    exact resolveTitleStart_le hsrc (Nat.le_of_lt (scanFullDateGo_bound hm).1)
  · obtain ⟨m, hm, rfl⟩ := List.mem_map.mp h
    have hm2 := List.mem_of_mem_filter hm
    rw [yearOnlyMatches] at hm2
    exact resolveTitleStart_le hsrc (Nat.le_of_lt (scanYearOnlyGo_bound hm2).1)

theorem categoryGo_cases {headers : List (Nat × List Char)} :
    ∀ {acc : List Char} {ts : Nat}, categoryGo headers acc ts = acc ∨
      ∃ ph ∈ headers, ph.1 < ts ∧ categoryGo headers acc ts = ph.2 := by
  induction headers with
  | nil => intro acc ts; left; rfl
  | cons ph rest ih =>
    intro acc ts
    obtain ⟨p, hh⟩ := ph
    by_cases hp : p < ts
    · have he : categoryGo ((p, hh) :: rest) acc ts = categoryGo rest hh ts := by
        rw [categoryGo, if_pos hp]
      rw [he]
      rcases @ih hh ts with h | ⟨ph', hmem, hlt', heq⟩
      · right; exact ⟨(p, hh), List.mem_cons_self _ _, hp, h⟩
      · right; exact ⟨ph', List.mem_cons_of_mem _ hmem, hlt', heq⟩
    · left
      rw [categoryGo, if_neg hp]

theorem assembleGo_mem_full {t : List Char} {srcs : List (Nat × Nat)}
    {headers : List (Nat × List Char)} {tls : List TitleLoc} :
    ∀ {used : List Nat} {a : Assembled}, a ∈ assembleGo t srcs headers tls used →
      a.src ∈ srcs ∧ ∃ tl ∈ tls, a.title_start = tl.title_start ∧
        a.inc.category = String.mk (categoryGo headers [] tl.title_start) := by
  induction tls with
  | nil => intro used a h; simp [assembleGo] at h
  | cons tl rest ih =>
    intro used a h
    rw [assembleGo] at h
    cases hm : findSrcMatch srcs used tl.title_end with
    | none =>
      rw [hm] at h
      obtain ⟨h1, tl', h2, h3⟩ := ih h
      exact ⟨h1, tl', List.mem_cons_of_mem _ h2, h3⟩
    | some m =>
      rw [hm] at h
      rcases List.mem_cons.mp h with h | h
      · subst h
        exact ⟨(findSrcMatch_some hm).1, tl, List.mem_cons_self _ _, rfl, rfl⟩
      · obtain ⟨h1, tl', h2, h3⟩ := ih h
        exact ⟨h1, tl', List.mem_cons_of_mem _ h2, h3⟩

/-- C4, amended: terminator-marker and date-suffix scanning are confined to
`[0, boundary)` — every terminator span and every date match begins strictly
before the boundary and ends at or before it — and although section-heading
scanning runs over the whole stream (see the counterexample), every span a
record is built from respects the boundary: the matched terminator starts
strictly before it, the resolved `title_start` does not exceed it, and any
heading supplying the record's category starts strictly before it. -/
theorem C4_boundary_respect (t : List Char) :
    (∀ sp ∈ sourcePositions t (find_end_boundary t),
      sp.1 < find_end_boundary t ∧ sp.2 ≤ find_end_boundary t) ∧
    (∀ m ∈ fullDateMatches t (find_end_boundary t),
      m.start < find_end_boundary t ∧ m.stop ≤ find_end_boundary t) ∧
    (∀ m ∈ yearOnlyMatches t (find_end_boundary t),
      m.start < find_end_boundary t ∧ m.stop ≤ find_end_boundary t) ∧
    ∀ a ∈ incidentsFiltered t,
      a.src.1 < find_end_boundary t ∧ a.title_start ≤ find_end_boundary t ∧
        (a.inc.category = "" ∨ ∃ ph ∈ find_section_headers t,
          ph.1 < find_end_boundary t ∧ String.mk ph.2 = a.inc.category) := by
  refine ⟨sourcePositions_bound, ?_, ?_, ?_⟩
  · intro m hm
    rw [fullDateMatches] at hm
    exact scanFullDateGo_bound hm
  · intro m hm
    rw [yearOnlyMatches] at hm
    exact scanYearOnlyGo_bound hm
  · intro a ha
    have ha2 := List.mem_of_mem_filter ha
    rw [incidentsFiltered] at ha
    rw [incidentsAssembled] at ha2
    obtain ⟨hsrc, tl, htl, hts, hcat⟩ := assembleGo_mem_full ha2
    have hts_le : a.title_start ≤ find_end_boundary t := by
      rw [hts]; exact titleLocations_ts_le tl htl
    refine ⟨(sourcePositions_bound a.src hsrc).1, hts_le, ?_⟩
    rcases @categoryGo_cases (find_section_headers t) [] tl.title_start
      with h | ⟨ph, hmem, hlt, heq⟩
    · left; rw [hcat, h]
    · right
      refine ⟨ph, hmem, ?_, by rw [hcat, heq]⟩
      have : tl.title_start ≤ find_end_boundary t := titleLocations_ts_le tl htl
      omega

/-- Witness for C4 (amended) at `c1text`: the single terminator span, the
single full-date match, and the single record all respect the boundary. -/
theorem C4_witness :
    ((63, 71) : Nat × Nat).1 < find_end_boundary c1text ∧
      (∀ a ∈ incidentsFiltered c1text,
        a.src.1 < find_end_boundary c1text ∧
          a.title_start ≤ find_end_boundary c1text ∧
          (a.inc.category = "" ∨ ∃ ph ∈ find_section_headers c1text,
            ph.1 < find_end_boundary c1text ∧ String.mk ph.2 = a.inc.category)) :=
  ⟨((C4_boundary_respect c1text).1 (63, 71) (by decide)).1,
   (C4_boundary_respect c1text).2.2.2⟩

/-! ## `clean_title` fixed-point lemmas (used by C6) -/

theorem clean_title_eq (s : List Char) :
    clean_title s = stripChars (sub7CollapseSpaces (sub6InlineHdr (sub5CollapseNl
      (sub4HdrLines (sub3MidPage (sub2TrailPage (sub1LeadPage s))))))) := rfl

theorem lastNlIdx_none {l : List Char} (h : '\n' ∉ l) : lastNlIdx l = none := by
  induction l with
  | nil => rfl
  | cons c rest ih =>
    rw [lastNlIdx]
    rw [ih (fun hm => h (List.mem_cons_of_mem _ hm))]
    have hc : c ≠ '\n' := fun he => h (he ▸ List.mem_cons_self _ _)
    simp [hc]

theorem sub1_id {u : List Char} (h : '\n' ∉ u) : sub1LeadPage u = u := by
  rw [sub1LeadPage]
  split
  · rw [lastNlIdx_none]
    intro hm
    exact h (List.drop_subset _ _ ((List.takeWhile_sublist _).subset hm))
  · rfl

theorem sub2Go_none {l : List Char} (h : '\n' ∉ l) : ∀ i, sub2Go l i = none := by
  induction l with
  | nil => intro i; rfl
  | cons c rest ih =>
    intro i
    rw [sub2Go]
    have hc : sub2Here (c :: rest) = false := by
      rw [sub2Here]
      have : c ≠ '\n' := fun he => h (he ▸ List.mem_cons_self _ _)
      simp [this]
    rw [hc]
    simp only [if_false, Bool.false_eq_true]
    exact ih (fun hm => h (List.mem_cons_of_mem _ hm)) (i + 1)

theorem sub2_id {u : List Char} (h : '\n' ∉ u) : sub2TrailPage u = u := by
  rw [sub2TrailPage, sub2Go_none h]

theorem sub3Go_id {u : List Char} (h : '\n' ∉ u) : ∀ fuel, sub3Go fuel u = u := by
  induction u with
  | nil => intro fuel; cases fuel <;> rfl
  | cons c rest ih =>
    intro fuel
    cases fuel with
    | zero => rfl
    | succ fuel =>
      rw [sub3Go]
      have hc : c ≠ '\n' := fun he => h (he ▸ List.mem_cons_self _ _)
      rw [if_neg (by simpa using hc)]
      rw [ih (fun hm => h (List.mem_cons_of_mem _ hm)) fuel]

theorem sub3_id {u : List Char} (h : '\n' ∉ u) : sub3MidPage u = u := by
  rw [sub3MidPage, sub3Go_id h]

theorem splitLinesGo_no_boundary {l : List Char}
    (h : ∀ c ∈ l, lineBoundaryCh c = false) :
    ∀ acc : List Char, splitLinesGo acc l =
      if (acc.reverse ++ l).isEmpty then [] else [acc.reverse ++ l] := by
  induction l with
  | nil => intro acc; rw [splitLinesGo]; simp
  | cons c rest ih =>
    intro acc
    have hc := h c (List.mem_cons_self _ _)
    have hrest : ∀ x ∈ rest, lineBoundaryCh x = false :=
      fun x hx => h x (List.mem_cons_of_mem _ hx)
    cases rest with
    | nil =>
      rw [splitLinesGo, if_neg (by simp [hc])]
      simp
    | cons d rest2 =>
      rw [splitLinesGo]
      have hcr : ¬ (c = '\r' && d = '\n') = true := by
        have : c ≠ '\r' := fun he => by
          rw [he] at hc; exact absurd hc (by decide)
        simp [this]
      rw [if_neg hcr, if_neg (by simp [hc]), ih hrest (c :: acc)]
      simp

theorem sub4_id {u : List Char} (hb : ∀ c ∈ u, lineBoundaryCh c = false)
    (hh : hdrShaped u = false) : sub4HdrLines u = u := by
  rw [sub4HdrLines, splitLinesPy, splitLinesGo_no_boundary hb]
  cases u with
  | nil => rfl
  | cons c rest =>
    simp only [List.reverse_nil, List.nil_append, List.isEmpty_cons, if_false,
      Bool.false_eq_true]
    rw [popHdrLines, hh]
    simp only [if_false, Bool.false_eq_true]
    simp [List.intercalate]

theorem nlRunEmit_no_nl {run : List Char} (h : '\n' ∉ run) :
    nlRunEmit run = run.reverse := by
  rw [nlRunEmit, if_neg]
  simpa using h

theorem sub5Go_id {l : List Char} (h : '\n' ∉ l) :
    ∀ run : List Char, '\n' ∉ run → sub5Go run l = run.reverse ++ l := by
  induction l with
  | nil =>
    intro run hrun
    rw [sub5Go, nlRunEmit_no_nl hrun, List.append_nil]
  | cons c rest ih =>
    intro run hrun
    have hc : c ≠ '\n' := fun he => h (he ▸ List.mem_cons_self _ _)
    have hrest : '\n' ∉ rest := fun hm => h (List.mem_cons_of_mem _ hm)
    rw [sub5Go]
    split
    · rw [ih hrest (c :: run) (by
        intro hm
        rcases List.mem_cons.mp hm with he | hm2
        · exact hc he.symm
        · exact hrun hm2)]
      simp
    · rw [nlRunEmit_no_nl hrun, ih hrest [] (by simp)]
      simp

theorem sub5_id {u : List Char} (h : '\n' ∉ u) : sub5CollapseNl u = u := by
  rw [sub5CollapseNl, sub5Go_id h [] (by simp)]
  rfl

theorem spaceRunEmit_short {run : List Char} (h : run.length ≤ 1) :
    spaceRunEmit run = run := by
  rw [spaceRunEmit, if_neg]
  omega

theorem sub7Go_chain : ∀ (l run : List Char), (sub7Go run l).Chain' noTwoSp := by
  intro l
  induction l with
  | nil =>
    intro run
    rw [sub7Go, spaceRunEmit]
    split
    · simp
    · rename_i hlen
      have hle : run.length ≤ 1 := by omega
      cases run with
      | nil => simp
      | cons x r2 =>
        cases r2 with
        | nil => simp
        | cons y r3 => simp at hle
  | cons c rest ih =>
    intro run
    rw [sub7Go]
    split
    · exact ih (c :: run)
    · rename_i hc
      rw [List.chain'_append]
      refine ⟨?_, ?_, ?_⟩
      · rw [spaceRunEmit]
        split
        · simp
        · rename_i hlen
          have hle : run.length ≤ 1 := by omega
          cases run with
          | nil => simp
          | cons x r2 =>
            cases r2 with
            | nil => simp
            | cons y r3 => simp at hle
      · exact List.Chain'.cons' (ih []) (by
          intro y _
          exact fun hand => hc hand.1)
      · intro x _ y hy
        simp only [List.head?_cons, Option.mem_def] at hy
        cases hy
        exact fun hand => hc hand.2

theorem sub7Go_id {l : List Char} (hch : l.Chain' noTwoSp) :
    ∀ run : List Char, (run = [] ∨ (run = [' '] ∧ l.head? ≠ some ' ')) →
      sub7Go run l = run ++ l := by
  induction l with
  | nil =>
    intro run hrun
    rcases hrun with rfl | ⟨rfl, -⟩
    · rfl
    · rfl
  | cons c rest ih =>
    intro run hrun
    have hch' : rest.Chain' noTwoSp := hch.tail
    rw [sub7Go]
    by_cases hc : c = ' '
    · subst hc
      rcases hrun with rfl | ⟨rfl, hhd⟩
      · rw [if_pos rfl]
        have hrest_hd : rest.head? ≠ some ' ' := by
          cases rest with
          | nil => simp
          | cons d r2 =>
            have := List.chain'_cons.mp hch
            simp only [List.head?_cons]
            intro he
            injection he with he
            exact this.1 ⟨rfl, he⟩
        rw [ih hch' [' '] (Or.inr ⟨rfl, hrest_hd⟩)]
        rfl
      · exact absurd rfl hhd
    · rw [if_neg hc]
      have hre : spaceRunEmit run = run := by
        rcases hrun with rfl | ⟨rfl, -⟩ <;> simp [spaceRunEmit]
      rw [hre, ih hch' [] (Or.inl rfl)]
      simp

theorem sub7_of_chain {u : List Char} (hch : u.Chain' noTwoSp) :
    sub7CollapseSpaces u = u := by
  rw [sub7CollapseSpaces, sub7Go_id hch [] (Or.inl rfl)]
  rfl

theorem stripEnd_isPre (l : List Char) : stripEnd l <+: l := by
  rw [stripEnd]
  have h2 : (l.reverse.dropWhile pyWs).reverse.reverse <:+ l.reverse := by
    rw [List.reverse_reverse]
    exact List.dropWhile_suffix _
  exact List.reverse_suffix.mp h2

theorem stripChars_isInfix (l : List Char) : stripChars l <:+: l := by
  rw [stripChars]
  exact (stripEnd_isPre _).isInfix.trans (List.dropWhile_suffix _).isInfix

theorem chain_stripChars {R : Char → Char → Prop} {l : List Char}
    (h : l.Chain' R) : (stripChars l).Chain' R :=
  h.infix (stripChars_isInfix l)

theorem dropWhile_head_false {p : Char → Bool} {l : List Char} {c : Char}
    (h : (l.dropWhile p).head? = some c) : p c = false := by
  induction l with
  | nil => simp at h
  | cons a rest ih =>
    rw [List.dropWhile_cons] at h
    split at h
    · exact ih h
    · rename_i hp
      simp only [List.head?_cons, Option.some.injEq] at h
      subst h
      simpa using hp

theorem isPre_head {y x : List Char} {c : Char} (hp : y <+: x)
    (h : y.head? = some c) : x.head? = some c := by
  obtain ⟨t, rfl⟩ := hp
  cases y with
  | nil => simp at h
  | cons a r => simpa using h

theorem stripChars_head {l : List Char} {c : Char}
    (h : (stripChars l).head? = some c) : pyWs c = false := by
  have h2 : (l.dropWhile pyWs).head? = some c :=
    isPre_head (stripEnd_isPre _) h
  exact dropWhile_head_false h2

theorem stripEnd_reverse (l : List Char) :
    (stripEnd l).reverse = l.reverse.dropWhile pyWs := by
  rw [stripEnd, List.reverse_reverse]

theorem stripChars_last {l : List Char} {c : Char}
    (h : (stripChars l).getLast? = some c) : pyWs c = false := by
  rw [List.getLast?_eq_head?_reverse, stripChars, stripEnd_reverse] at h
  exact dropWhile_head_false h

theorem dropWhile_of_head_false {p : Char → Bool} {l : List Char}
    (h : ∀ c, l.head? = some c → p c = false) : l.dropWhile p = l := by
  cases l with
  | nil => rfl
  | cons c rest =>
    rw [List.dropWhile_cons, h c rfl]
    simp

theorem stripChars_of_trimmed {u : List Char}
    (hh : ∀ c, u.head? = some c → pyWs c = false)
    (hl : ∀ c, u.getLast? = some c → pyWs c = false) : stripChars u = u := by
  rw [stripChars, dropWhile_of_head_false hh, stripEnd,
    dropWhile_of_head_false (by
      intro c hc
      exact hl c (by rwa [List.getLast?_eq_head?_reverse])),
    List.reverse_reverse]

/-! ## C6 — idempotence of `clean_title` (amended) -/

seal sub1LeadPage sub2TrailPage sub3MidPage sub4HdrLines sub5CollapseNl sub6InlineHdr sub7CollapseSpaces in
/-- C6, amended: `clean_title` is idempotent on every input whose cleaned
result contains no line-boundary character, is not itself a
section-header-shaped line, and is left unchanged by the inline
header-shaped-leading strip.  (Unrestricted idempotence fails: see the
counterexample, whose cleaned result is a header-shaped line that the second
pass deletes.) -/
theorem C6_idempotent_amended (s : List Char)
    (h1 : ∀ c ∈ clean_title s, lineBoundaryCh c = false)
    (h2 : hdrShaped (clean_title s) = false)
    (h3 : sub6InlineHdr (clean_title s) = clean_title s) :
    clean_title (clean_title s) = clean_title s := by
  have hnl : '\n' ∉ clean_title s := by
    intro hm
    have := h1 '\n' hm
    simp [lineBoundaryCh] at this
  have hchain : (clean_title s).Chain' noTwoSp := by
    rw [clean_title_eq]
    apply chain_stripChars
    rw [sub7CollapseSpaces]
    exact sub7Go_chain _ []
  have hhead : ∀ c, (clean_title s).head? = some c → pyWs c = false := by
    intro c hc
    rw [clean_title_eq] at hc
    exact stripChars_head hc
  have hlast : ∀ c, (clean_title s).getLast? = some c → pyWs c = false := by
    intro c hc
    rw [clean_title_eq] at hc
    exact stripChars_last hc
  generalize hu : clean_title s = u at h1 h2 h3 hnl hchain hhead hlast ⊢
  rw [clean_title_eq, sub1_id hnl, sub2_id hnl, sub3_id hnl, sub4_id h1 h2,
    sub5_id hnl, h3, sub7_of_chain hchain, stripChars_of_trimmed hhead hlast]

/-- Witness for C6 (amended): a plain single-line title is a fixed point. -/
theorem C6_witness :
    clean_title (clean_title "He stole funds".data) =
      clean_title "He stole funds".data :=
  C6_idempotent_amended "He stole funds".data (by decide) (by decide) (by decide)

/-! ## Counterexample for C9 -/

theorem lineStartsGo_mem {l : List Char} : ∀ {i p : Nat},
    p ∈ lineStartsGo l i ↔ ∃ k, l[k]? = some '\n' ∧ p = i + k + 1 := by
  induction l with
  | nil => intro i p; simp [lineStartsGo]
  | cons c rest ih =>
    intro i p
    rw [lineStartsGo]
    by_cases hc : c = '\n'
    · subst hc
      rw [if_pos rfl]
      simp only [List.mem_cons, ih]
      constructor
      · rintro (rfl | ⟨k, hk, rfl⟩)
        · exact ⟨0, by simp⟩
        · exact ⟨k + 1, by simpa using hk, by omega⟩
      · rintro ⟨k, hk, rfl⟩
        cases k with
        | zero => left; omega
        | succ k => right; exact ⟨k, by simpa using hk, by omega⟩
    · rw [if_neg hc]
      rw [ih]
      constructor
      · rintro ⟨k, hk, rfl⟩
        exact ⟨k + 1, by simpa using hk, by omega⟩
      · rintro ⟨k, hk, rfl⟩
        cases k with
        | zero => simp at hk; exact absurd hk hc
        | succ k => exact ⟨k, by simpa using hk, by omega⟩

theorem lineStarts_mem {t : List Char} {p : Nat} :
    p ∈ lineStarts t ↔ p = 0 ∨ ∃ q, p = q + 1 ∧ t[q]? = some '\n' := by
  rw [lineStarts, List.mem_cons, lineStartsGo_mem]
  constructor
  · rintro (rfl | ⟨k, hk, rfl⟩)
    · left; rfl
    · right; exact ⟨k, by omega, hk⟩
  · rintro (rfl | ⟨q, rfl, hq⟩)
    · left; rfl
    · right; exact ⟨q, hq, by omega⟩

theorem nlSearch_spec {l : List Char} : ∀ {i j : Nat}, nlSearch l i = some j →
    i ≤ j ∧ l[j - i]? = some '\n' := by
  induction l with
  | nil => intro i j h; exact Option.noConfusion h
  | cons c rest ih =>
    intro i j h
    rw [nlSearch] at h
    split at h
    · rename_i hc
      injection h with h
      subst h
      simp [hc]
    · obtain ⟨h1, h2⟩ := ih h
      refine ⟨by omega, ?_⟩
      have : j - i = (j - (i + 1)) + 1 := by omega
      rw [this]
      simpa using h2

theorem nlFrom_spec {t : List Char} {p j : Nat} (h : nlFrom t p = some j) :
    p ≤ j ∧ t[j]? = some '\n' := by
  rw [nlFrom] at h
  obtain ⟨h1, h2⟩ := nlSearch_spec h
  rw [List.getElem?_drop] at h2
  refine ⟨h1, ?_⟩
  have : p + (j - p) = j := by omega
  rwa [this] at h2

theorem segEnd_full {t : List Char} {p : Nat} :
    segEnd t t.length p =
      match nlFrom t p with | some j => j | none => t.length := by
  rw [segEnd]
  cases hn : nlFrom t p with
  | none => simp
  | some j =>
    have := (nlFrom_spec hn).2
    have hj : j < t.length := by
      by_contra hge
      rw [List.getElem?_eq_none (by omega)] at this
      exact Option.noConfusion this
    simp [Nat.min_eq_left (Nat.le_of_lt hj)]

theorem lineSegOf_eq_slice {t : List Char} {p : Nat} :
    lineSegOf t p = sliceOf t p (segEnd t t.length p) := by
  rw [lineSegOf, segEnd_full]

theorem slice_cons_lt {t : List Char} {p e : Nat} {c : Char} {rest : List Char}
    (h : sliceOf t p e = c :: rest) : p < t.length := by
  by_contra hge
  rw [sliceOf, List.drop_eq_nil_of_le] at h
  · exact List.noConfusion h
  · rw [List.length_take]
    omega

theorem hdrSegOk_iff {t : List Char} {b p : Nat} : hdrSegOk t b p = true ↔
    ∃ c rest, sliceOf t p (segEnd t b p) = c :: rest ∧ upperAZ c = true ∧
      rest ≠ [] ∧ rest.all hdrClassCh = true := by
  rw [hdrSegOk]
  cases hs : sliceOf t p (segEnd t b p) with
  | nil =>
    constructor
    · intro h; exact Bool.noConfusion h
    · rintro ⟨c, rest, h, -⟩
      exact List.noConfusion h
  | cons c rest =>
    constructor
    · intro hb
      simp only [Bool.and_eq_true, decide_eq_true_eq] at hb
      refine ⟨c, rest, rfl, hb.1.1, ?_, hb.1.2⟩
      intro hr
      rw [hr] at hb
      simp at hb
    · rintro ⟨c', rest', heq, h1, h2, h3⟩
      injection heq with e1 e2
      subst e1
      subst e2
      simp only [Bool.and_eq_true, decide_eq_true_eq]
      have hp := List.length_pos.mpr h2
      exact ⟨⟨h1, h3⟩, by omega⟩

theorem headerSpansIn_mem_iff {t : List Char} {a b : Nat} {se : Nat × Nat} :
    se ∈ headerSpansIn t a b ↔ se.1 ∈ lineStarts t ∧ a ≤ se.1 ∧ se.1 < b ∧
      hdrSegOk t b se.1 = true ∧ se.2 = segEnd t b se.1 := by
  rw [headerSpansIn, List.mem_filterMap]
  constructor
  · rintro ⟨p, hp, hpse⟩
    rw [List.mem_filter] at hp
    obtain ⟨hmem, hcond⟩ := hp
    simp only [Bool.and_eq_true, decide_eq_true_eq] at hcond
    split at hpse
    · rename_i hok
      injection hpse with hpse
      subst hpse
      exact ⟨hmem, hcond.1, hcond.2, hok, rfl⟩
    · exact Option.noConfusion hpse
  · rintro ⟨hmem, ha, hb, hok, hse⟩
    refine ⟨se.1, ?_, ?_⟩
    · rw [List.mem_filter]
      exact ⟨hmem, by simp [ha, hb]⟩
    · rw [if_pos hok, ← hse]

theorem pairwise_lt_filterMap {α β : Type} (key : α → Nat) (key2 : β → Nat)
    {l : List α} {f : α → Option β}
    (hf : ∀ a b, f a = some b → key2 b = key a)
    (h : l.Pairwise fun x y => key x < key y) :
    (l.filterMap f).Pairwise fun x y => key2 x < key2 y := by
  induction l with
  | nil => simp
  | cons a rest ih =>
    rw [List.filterMap_cons]
    have hpair := List.pairwise_cons.mp h
    cases hfa : f a with
    | none => exact ih hpair.2
    | some b =>
      refine List.Pairwise.cons ?_ (ih hpair.2)
      intro y hy
      rw [List.mem_filterMap] at hy
      obtain ⟨x, hx, hxy⟩ := hy
      rw [hf a b hfa, hf x y hxy]
      exact hpair.1 x hx

theorem lineStartsGo_gt {l : List Char} : ∀ {i p : Nat},
    p ∈ lineStartsGo l i → i < p := by
  intro i p h
  obtain ⟨k, -, rfl⟩ := lineStartsGo_mem.mp h
  omega

theorem lineStartsGo_pairwise {l : List Char} : ∀ {i : Nat},
    (lineStartsGo l i).Pairwise (· < ·) := by
  induction l with
  | nil => intro i; simp [lineStartsGo]
  | cons c rest ih =>
    intro i
    rw [lineStartsGo]
    split
    · refine List.Pairwise.cons ?_ ih
      intro p hp
      exact lineStartsGo_gt hp
    · exact ih

theorem lineStarts_pairwise (t : List Char) : (lineStarts t).Pairwise (· < ·) := by
  rw [lineStarts]
  refine List.Pairwise.cons ?_ lineStartsGo_pairwise
  intro p hp
  have := lineStartsGo_gt hp
  omega

/-! ## C9 — characterization of `find_section_headers` (amended) -/

/-- C9, amended: `find_section_headers` recognizes exactly the lines whose
first character is an uppercase letter followed by at least one further
character, all remaining characters drawn from the allowed class, and whose
whitespace-stripped text has length at least 5; it returns
`(position, strippedText)` pairs in strictly ascending position order.  (The
claim's description — any line over the allowed alphabet of raw length ≥ 5 —
fails: see the counterexample.) -/
theorem C9_header_characterization :
    (∀ (t : List Char) (p : Nat) (h : List Char),
      (p, h) ∈ find_section_headers t ↔
        (p = 0 ∨ ∃ q, p = q + 1 ∧ t[q]? = some '\n') ∧
        (∃ c rest, lineSegOf t p = c :: rest ∧ upperAZ c = true ∧
          rest ≠ [] ∧ rest.all hdrClassCh = true) ∧
        h = stripChars (lineSegOf t p) ∧ 5 ≤ h.length) ∧
    ∀ t : List Char, (find_section_headers t).Pairwise fun x y => x.1 < y.1 := by
  constructor
  · intro t p h
    rw [find_section_headers, List.mem_filterMap]
    constructor
    · rintro ⟨se, hse, hmap⟩
      obtain ⟨hmem, -, hlt, hok, hend⟩ := headerSpansIn_mem_iff.mp hse
      simp only [] at hmap
      split at hmap
      · rename_i hlen
        injection hmap with hmap
        injection hmap with e1 e2
        subst e1
        subst e2
        refine ⟨lineStarts_mem.mp hmem, ?_, ?_, ?_⟩
        · obtain ⟨c, rest, hseq, hc, hr, hall⟩ := hdrSegOk_iff.mp hok
          exact ⟨c, rest, by rw [lineSegOf_eq_slice]; exact hseq, hc, hr, hall⟩
        · rw [lineSegOf_eq_slice, ← hend]
        · exact hlen
      · exact Option.noConfusion hmap
    · rintro ⟨hpos, ⟨c, rest, hseq, hc, hr, hall⟩, hh, hlen⟩
      have hplen : p < t.length := by
        rw [lineSegOf_eq_slice] at hseq
        exact slice_cons_lt hseq
      have hok : hdrSegOk t t.length p = true :=
        hdrSegOk_iff.mpr ⟨c, rest, by rw [← lineSegOf_eq_slice]; exact hseq,
          hc, hr, hall⟩
      refine ⟨(p, segEnd t t.length p), ?_, ?_⟩
      · exact headerSpansIn_mem_iff.mpr
          ⟨lineStarts_mem.mpr hpos, Nat.zero_le _, hplen, hok, rfl⟩
      · simp only []
        rw [if_pos (by rwa [← lineSegOf_eq_slice, ← hh]), ← lineSegOf_eq_slice, ← hh]
  · intro t
    rw [find_section_headers]
    refine pairwise_lt_filterMap Prod.fst Prod.fst ?_ ?_
    · intro se x hx
      simp only [] at hx
      split at hx
      · injection hx with hx
        subst hx
        rfl
      · exact Option.noConfusion hx
    · rw [headerSpansIn]
      refine pairwise_lt_filterMap id Prod.fst ?_ ?_
      · intro p x hx
        split at hx
        · injection hx with hx; subst hx; rfl
        · exact Option.noConfusion hx
      · exact List.Pairwise.sublist (List.filter_sublist _) (lineStarts_pairwise t)

/-- C9 fails as stated: the line `"1ABCD"` consists entirely of the allowed
characters and has length 5, yet `find_section_headers` reports nothing for
it (the regex additionally requires the first character to be an uppercase
letter). -/
theorem C9_counterexample :
    specHeaderLineOk (lineSegOf c9text 0) = true ∧ find_section_headers c9text = [] := by
  decide

end IncidentStripper
